import Mathlib

/-!
Verification of the two core algorithms of the `pylibnidaqmx` binding layer
(`nidaqmx/utils.py`): the channel-name pattern compressor `make_pattern` and
the driver status resolver `CHK`.

The source is Python 2 (`unicode`, `dict.viewitems`, `_winreg` all appear in
the repository), so `list == range(a, b)` compares two lists and string
comparison is lexicographic on byte values.  Python sets carry no specified
iteration order; the embedding canonicalises every set as a sorted
duplicate-free list, and every dict as an association list sorted by key
(the output loop of `make_pattern` iterates `sorted(patterns.keys())`
anyway, so key order is faithful).
-/

set_option maxHeartbeats 2000000

/-! ## Python string helpers used by `make_pattern` -/

/-- `path[1:] if path.startswith('/') else path` — strips one leading slash. -/
def stripSlash (p : String) : String :=
  match p.toList with
  | [] => p
  | c :: rest => if c = '/' then String.mk rest else p

/-- `path.split('/', 1)`: `none` when the string holds no slash (a bare
token), `some (before, after)` split at the first slash otherwise. -/
def splitSlashOnce (p : String) : Option (String × String) :=
  match p.toList.dropWhile (fun c => c ≠ '/') with
  | [] => none
  | _ :: rest => some (String.mk (p.toList.takeWhile (fun c => c ≠ '/')), String.mk rest)

/-- The `while i < len(word): if word[i].isdigit(): break` scan of
`make_pattern`: a bare word is cut at its first decimal digit into
`(word[:i], word[i:])`. -/
def digitSplit (w : String) : String × String :=
  (String.mk (w.toList.takeWhile (fun c => ¬ c.isDigit)),
   String.mk (w.toList.dropWhile (fun c => ¬ c.isDigit)))

/-- A path is a bare token when, after stripping one leading slash, it holds
no slash at all (`len(path.split('/', 1)) == 1`). -/
def isBareTok (p : String) : Bool :=
  (splitSlashOnce (stripSlash p)).isNone

/-! ## Python 2 string ordering (lexicographic on byte values) -/

/-- Strict lexicographic comparison of character lists by code point, the
order Python 2 uses on byte strings (and `sorted` uses on `patterns.keys()`). -/
def listLtB : List Char → List Char → Bool
  | [], [] => false
  | [], _ :: _ => true
  | _ :: _, [] => false
  | a :: as, b :: bs =>
    if a.toNat < b.toNat then true
    else if b.toNat < a.toNat then false
    else listLtB as bs

/-- Python 2 `s < t` on strings. -/
def strLtB (s t : String) : Bool := listLtB s.toList t.toList

/-! ## Canonical set / dict embedding -/

/-- Insert into a sorted duplicate-free list of strings: the canonical image
of a Python `set` of strings. -/
def insertStr (v : String) : List String → List String
  | [] => [v]
  | x :: xs =>
    if v = x then x :: xs
    else if strLtB v x then v :: x :: xs
    else x :: insertStr v xs

/-- Insert a `(key, value)` pair into an association list sorted by key whose
values are canonical sets: the image of `patterns[key].update([value])` with
`patterns` a Python dict of sets. -/
def insertGroup (k v : String) : List (String × List String) → List (String × List String)
  | [] => [(k, [v])]
  | (k2, vs) :: rest =>
    if k = k2 then (k2, insertStr v vs) :: rest
    else if strLtB k k2 then (k, [v]) :: (k2, vs) :: rest
    else (k2, vs) :: insertGroup k v rest

/-- The exceptions `make_pattern` can raise: the `assert flag` statement and
`int(i)` on a non-numeric string. -/
inductive PyErr where
  | assertionError
  | valueError
deriving DecidableEq

/-- State of the grouping loop of `make_pattern`: the `patterns` dict and the
`flag` marking that a bare token has been seen. -/
structure GroupState where
  patterns : List (String × List String)
  flag : Bool
deriving DecidableEq

/-- One iteration of the grouping loop of `make_pattern`: strip a leading
slash, split at the first slash, or — for a bare token — first run
`assert flag` when `patterns` is non-empty, then split at the first digit;
finally insert the `(prefix, remainder)` pair. -/
def processPath (st : GroupState) (p : String) : Except PyErr GroupState :=
  let q := stripSlash p
  match splitSlashOnce q with
  | some (a, b) => .ok ⟨insertGroup a b st.patterns, st.flag⟩
  | none =>
    if st.patterns ≠ [] ∧ st.flag = false then .error .assertionError
    else .ok ⟨insertGroup (digitSplit q).1 (digitSplit q).2 st.patterns, true⟩

/-- The whole grouping loop of `make_pattern` (its first `for path in paths`
loop), starting from the empty dict and `flag = False`. -/
def groupPaths (paths : List String) : Except PyErr GroupState :=
  paths.foldlM processPath ⟨[], false⟩

/-! ## Python `int` and `str` on decimal strings -/

def digitVal (c : Char) : Nat := c.toNat - 48

/-- Parse a non-empty all-digit character list as a natural number. -/
def parseDigits (cs : List Char) : Option Nat :=
  if cs ≠ [] ∧ cs.all Char.isDigit then
    some (cs.foldl (fun n c => 10 * n + digitVal c) 0)
  else none

/-- Python `int(s)` on the strings produced by path splitting: an optional
sign followed by decimal digits; anything else raises `ValueError`
(modelled as `none`). -/
def pyInt (s : String) : Option Int :=
  match s.toList with
  | '-' :: rest => (parseDigits rest).map (fun n => -(n : Int))
  | '+' :: rest => (parseDigits rest).map (fun n => (n : Int))
  | cs => (parseDigits cs).map (fun n => (n : Int))

/-- Little-endian decimal digits of `n`; the first argument is structural
fuel, sufficient whenever it is at least `n` (`n` has at most `n` digits). -/
def natToRevDigits : Nat → Nat → List Nat
  | 0, _ => []
  | fuel + 1, n => if n = 0 then [] else n % 10 :: natToRevDigits fuel (n / 10)

/-- Python `str` of a non-negative integer. -/
def pyStrNat (n : Nat) : String :=
  if n = 0 then "0"
  else String.mk ((natToRevDigits n n).reverse.map (fun d => Char.ofNat (48 + d)))

/-- Python `str` of an integer (`'%s' % i` and `'%d' % i`). -/
def pyStrInt (i : Int) : String :=
  if i < 0 then "-" ++ pyStrNat i.natAbs else pyStrNat i.natAbs

/-- Python 2 `range(a, b)` as a list of integers. -/
def intRange (a b : Int) : List Int :=
  (List.range (b - a).toNat).map (fun (k : Nat) => a + (k : Int))

/-! ## The output loop and recursion of `make_pattern` -/

/-- `[int(i) for i in lst]` evaluated left to right: `none` when some
element raises `ValueError`. -/
def mapPyInt : List String → Option (List Int)
  | [] => some []
  | s :: rest =>
    match pyInt s, mapPyInt rest with
    | some i, some is => some (i :: is)
    | _, _ => none

/-- Longest path length in the list; one fuel unit above it bounds the
recursion depth of `make_pattern`, since every recursive call descends to
remainders that are strictly shorter than the paths they came from. -/
def maxLenS (paths : List String) : Nat :=
  paths.foldr (fun p m => max p.length m) 0

/-- The output loop of `make_pattern` (`for prefix in sorted(patterns.keys())`),
with `recur` the recursive call `make_pattern(lst, _main=False)`.  `orig` is
the original `paths` argument used by the `','.join(paths)` fallback, `flag`
and `main` mirror the Python locals, and `acc` accumulates `r` reversed. -/
def goF (recur : List String → Except PyErr (Option String))
    (orig : List String) (flag main : Bool) :
    List (String × List String) → List String → Except PyErr (Option String)
  | [], acc => .ok (some (String.intercalate "," acc.reverse))
  | (pre, lst) :: rest, acc =>
    match lst with
    | [x] => goF recur orig flag main rest ((pre ++ (if flag then x else "/" ++ x)) :: acc)
    | [] => goF recur orig flag main rest (pre :: acc)
    | _ :: _ :: _ =>
      if pre ≠ "" then
        match recur lst with
        | .error e => .error e
        | .ok none => if main then .ok (some (String.intercalate "," orig)) else .ok none
        | .ok (some sub) =>
          let sub2 := if sub.toList.contains ',' then "\x7b" ++ sub ++ "\x7d" else sub
          goF recur orig flag main rest ((pre ++ (if flag then sub2 else "/" ++ sub2)) :: acc)
      else
        match mapPyInt lst with
        | none => .error .valueError
        | some ints =>
          let slst := List.insertionSort (fun a b => a ≤ b) ints
          match slst with
          | [] => .ok none
          | s0 :: _ =>
            if slst.length = 1 then
              goF recur orig flag main rest (pyStrInt s0 :: acc)
            else if slst = intRange s0 (slst.getLastD 0 + 1) then
              goF recur orig flag main rest
                ((pyStrInt s0 ++ ":" ++ pyStrInt (slst.getLastD 0)) :: acc)
            else .ok none

/-- `make_pattern` with explicit structural fuel bounding the recursion
depth; `mpF 0` is never reached from `make_pattern` below. -/
def mpF : Nat → List String → Bool → Except PyErr (Option String)
  | 0, _, _ => .ok none
  | fuel + 1, paths, main =>
    match groupPaths paths with
    | .error e => .error e
    | .ok st => goF (fun lst => mpF fuel lst false) paths st.flag main st.patterns []

/-- `make_pattern(paths, _main)` from `nidaqmx/utils.py`.  The result is
`.ok (some s)` when Python returns the string `s`, `.ok none` when Python
returns `None`, and `.error e` when Python raises. -/
def make_pattern (paths : List String) (main : Bool) : Except PyErr (Option String) :=
  mpF (maxLenS paths + 1) paths main

instance {e a : Type} [DecidableEq e] [DecidableEq a] : DecidableEq (Except e a) := fun x y =>
  match x, y with
  | .ok v, .ok w =>
    if h : v = w then .isTrue (by rw [h]) else .isFalse (fun hh => by cases hh; exact h rfl)
  | .error v, .error w =>
    if h : v = w then .isTrue (by rw [h]) else .isFalse (fun hh => by cases hh; exact h rfl)
  | .ok _, .error _ => .isFalse (fun hh => by cases hh)
  | .error _, .ok _ => .isFalse (fun hh => by cases hh)

/-- Sorted duplicate-free list of strings (the canonical image of a set). -/
abbrev SortedStrs (l : List String) : Prop := l.Pairwise (fun a b => strLtB a b = true)

/-- `(k, v)` is recorded in the group structure. -/
abbrev groupMem (k v : String) (l : List (String × List String)) : Prop :=
  ∃ vs, (k, vs) ∈ l ∧ v ∈ vs

/-- Well-formedness of the canonical group structure: keys strictly sorted,
every value list strictly sorted and non-empty. -/
abbrev GroupWF (l : List (String × List String)) : Prop :=
  l.Pairwise (fun a b => strLtB a.1 b.1 = true) ∧ ∀ e ∈ l, SortedStrs e.2 ∧ e.2 ≠ []

/-- The prefix a path is filed under by the grouping loop. -/
def splitKey (p : String) : String :=
  match splitSlashOnce (stripSlash p) with
  | some ab => ab.1
  | none => (digitSplit (stripSlash p)).1

/-- The remainder a path contributes to its prefix's set. -/
def splitRem (p : String) : String :=
  match splitSlashOnce (stripSlash p) with
  | some ab => ab.2
  | none => (digitSplit (stripSlash p)).2

/-! ## The status resolver `CHK` -/

/-- `default_buf_size` from `nidaqmx/constants.py`. -/
def default_buf_size : Nat := 3000

/-- Python `needle in haystack` on character lists. -/
def subListB (n : List Char) : List Char → Bool
  | [] => n.isEmpty
  | c :: t => n.isPrefixOf (c :: t) || subListB n t

/-- Python `needle in haystack` on strings, as used by
`'Buffer is too small to fit the string' in str(msg)` and by the
`','  in subpattern` test. -/
def strInB (needle hay : String) : Bool := subListB needle.toList hay.toList

/-- Result of one foreign call (`DAQmxGetExtendedErrorInfo` or
`DAQmxGetErrorString`) at a given buffer capacity: either it returns a
status `r` leaving `content` in the buffer, or it raises `RuntimeError`
with message `msg` leaving `content` in the buffer — the `ctypes` buffer
object outlives the exception, and the code after the loop reads it. -/
inductive CallResult where
  | ret (r : Int) (content : String)
  | raiseRuntimeError (msg : String) (content : String)

/-- The external environment of one `CHK` call: the two foreign
error-string lookups as functions of the buffer capacity (the status code
passed to `DAQmxGetErrorString` is fixed for the call and folded into the
field), the static `error_map` table from the generated header module, and
`textwrap.wrap(-, 80)` from the Python standard library. -/
structure CHKEnv where
  getExtendedErrorInfo : Nat → CallResult
  getErrorString : Nat → CallResult
  errorMap : Int → Option String
  wrap : String → List String

/-- Outcome of one iteration of the `while buf_size < 1000000` body of
`CHK`: `done` when the `try` block completed with final status `r` and
buffer content (`else: break`); `tooSmall` when a `RuntimeError` whose
text holds the buffer-too-small marker was caught (`buf_size *= 2`) —
there `rNew = some r1` records that `DAQmxGetExtendedErrorInfo` had
already returned the nonzero status `r1`, assigning the local `r`, before
`DAQmxGetErrorString` raised, while `rNew = none` records that the
extended-info call itself raised, leaving `r` untouched, and `content` is
what the attempt left in the buffer; `raised` when another `RuntimeError`
was caught (re-raised as `NIDAQmxRuntimeError`). -/
inductive AttemptOutcome where
  | done (r : Int) (content : String)
  | tooSmall (rNew : Option Int) (content : String)
  | raised (msg : String)

/-- One iteration of the retry loop of `CHK` at capacity `bufSize`:
call `DAQmxGetExtendedErrorInfo`; on a nonzero return fall back to
`DAQmxGetErrorString`; classify any `RuntimeError` by whether its text
holds `'Buffer is too small to fit the string'`, recording in the
too-small case whether the extended-info call had assigned the local `r`
first. -/
def runAttempt (env : CHKEnv) (bufSize : Nat) : AttemptOutcome :=
  match env.getExtendedErrorInfo bufSize with
  | .raiseRuntimeError m c =>
    if strInB "Buffer is too small to fit the string" m then .tooSmall none c else .raised m
  | .ret r c =>
    if r ≠ 0 then
      match env.getErrorString bufSize with
      | .raiseRuntimeError m c2 =>
        if strInB "Buffer is too small to fit the string" m then .tooSmall (some r) c2
        else .raised m
      | .ret r2 c2 => .done r2 c2
    else .done r c

/-- Result of the whole retry loop: `got r content` when some attempt broke
out of the loop, `raisedOther` when an attempt raised a non-buffer
`RuntimeError`, and `exhausted rOpt content` when every attempt reported
buffer-too-small and the capacity reached the `1000000` bound — there
`rOpt` is the last value the Python locals bound to `r` across all
iterations (`none` when `r` was never assigned, since only the
extended-info call assigns it before a too-small raise) and `content` is
the final iteration's buffer. -/
inductive LoopResult where
  | got (r : Int) (content : String)
  | raisedOther (msg : String)
  | exhausted (rOpt : Option Int) (content : String)
deriving DecidableEq

/-- The `while buf_size < 1000000` loop of `CHK` with structural fuel,
threading the persistent locals of the Python loop: `rOpt` is the value
bound to `r` so far (`none` = unbound) and `c` the current buffer
contents.  From the start capacity `default_buf_size = 3000` the capacity
doubles each iteration, so any fuel of at least `10` yields the loop's
true result (`CHKloopF_fuel_stable` below). -/
def CHKloopF (env : CHKEnv) : Nat → Nat → Option Int → String → LoopResult
  | 0, _, rOpt, c => .exhausted rOpt c
  | fuel + 1, bufSize, rOpt, c =>
    if bufSize < 1000000 then
      match runAttempt env bufSize with
      | .tooSmall rNew c2 =>
        CHKloopF env fuel (bufSize * 2)
          (match rNew with
           | some r1 => some r1
           | none => rOpt) c2
      | .raised m => .raisedOther m
      | .done r c2 => .got r c2
    else .exhausted rOpt c

/-- The retry loop as executed by `CHK`: start capacity `default_buf_size`,
`r` unbound.  (The initial buffer string is never observable: the start
capacity is below the bound, so at least one attempt runs.) -/
def CHKloop (env : CHKEnv) : LoopResult := CHKloopF env 20 default_buf_size none ""

/-- The capacities at which the loop performs a foreign-call attempt, in
order (instrumentation of `CHKloopF`; same recursion structure, with the
`r`/buffer state dropped since the capacities do not depend on it). -/
def attemptSizesF (env : CHKEnv) : Nat → Nat → List Nat
  | 0, _ => []
  | fuel + 1, bufSize =>
    if bufSize < 1000000 then
      bufSize ::
        (match runAttempt env bufSize with
         | .tooSmall _ _ => attemptSizesF env fuel (bufSize * 2)
         | _ => [])
    else []

/-- The capacities attempted by the loop of one `CHK` call. -/
def attemptSizes (env : CHKEnv) : List Nat := attemptSizesF env 20 default_buf_size

/-- The pure doubling schedule `bufSize, 2*bufSize, ...` up to the
`1000000` bound: the capacities the loop attempts when every attempt
reports a too-small buffer. -/
def doubleSizesF : Nat → Nat → List Nat
  | 0, _ => []
  | fuel + 1, bufSize =>
    if bufSize < 1000000 then bufSize :: doubleSizesF fuel (bufSize * 2) else []

/-- Errors a `CHK` call can raise: `NIDAQmxRuntimeError` (the exception
class of the package, raised for driver errors and for wrapped foreign
`RuntimeError`s), the `KeyError` of `error_map[return_code]` on a code
absent from the table, and the `UnboundLocalError` of reading `r` after a
loop that never assigned it. -/
inductive CHKError where
  | nidaqmxRuntimeError (msg : String)
  | keyError (code : Int)
  | unboundLocalError
deriving DecidableEq

/-- Python `repr` of the buffer contents (a byte string). -/
def pyRepr (s : String) : String := "\x27" ++ s ++ "\x27"

/-- `'\n  '.join([''] + textwrap.wrap(buf.value, 80) + ['-' * 10])`. -/
def wrapText (env : CHKEnv) (content : String) : String :=
  String.intercalate "\n  " ([""] ++ env.wrap content ++ ["----------"])

/-- The `if r: ... else: ...` block after the retry loop of `CHK`,
executed with the local `r` bound to `r` and the buffer holding `content`
— either because an attempt broke out of the loop, or because the loop
exhausted its capacity after an extended-info call had assigned `r`. -/
def resolveBound (env : CHKEnv) (return_code : Int) (funcname args : String)
    (r : Int) (content : String) : Except CHKError (Int × List String) :=
  if r ≠ 0 then
    if return_code < 0 then
      match env.errorMap return_code with
      | none => .error (.keyError return_code)
      | some nm =>
        .error (.nidaqmxRuntimeError
          (funcname ++ args ++ " failed with error " ++ nm ++ "=" ++
            pyStrInt return_code ++ ": " ++ pyRepr content))
    else
      .ok (return_code,
        [funcname ++ args ++ " warning: " ++
          (match env.errorMap return_code with
           | some nm => nm
           | none => pyStrInt return_code) ++ "\n"])
  else
    if return_code < 0 then
      .error (.nidaqmxRuntimeError (funcname ++ args ++ ":" ++ wrapText env content))
    else
      .ok (return_code, [funcname ++ args ++ " warning:" ++ wrapText env content ++ "\n"])

/-- `CHK(return_code, funcname, *args)` from `nidaqmx/utils.py`.  `args` is
the string Python interpolates for the argument tuple.  The result is
`.ok (code, diags)` when Python returns `code` having written the lines
`diags` to `sys.stderr`, and `.error e` when Python raises.  Reading `r`
after an exhausted loop raises `UnboundLocalError` only when no attempt
ever assigned it; with a stale `r` from an earlier extended-info return,
the ordinary `if r:` block runs. -/
def CHK (env : CHKEnv) (return_code : Int) (funcname args : String) :
    Except CHKError (Int × List String) :=
  if return_code = 0 then .ok (return_code, [])
  else
    match CHKloop env with
    | .raisedOther m => .error (.nidaqmxRuntimeError m)
    | .exhausted none _ => .error .unboundLocalError
    | .exhausted (some r) content => resolveBound env return_code funcname args r content
    | .got r content => resolveBound env return_code funcname args r content

/-- An environment whose every lookup reports a too-small buffer. -/
def envAllTooSmall : CHKEnv where
  getExtendedErrorInfo := fun _ =>
    .raiseRuntimeError "Buffer is too small to fit the string." ""
  getErrorString := fun _ =>
    .raiseRuntimeError "Buffer is too small to fit the string." ""
  errorMap := fun _ => none
  wrap := fun s => [s]

/-- An environment whose lookups always succeed, leaving `msg` in the buffer. -/
def envOkLookup : CHKEnv where
  getExtendedErrorInfo := fun _ => .ret 0 "msg"
  getErrorString := fun _ => .ret 0 "msg"
  errorMap := fun _ => none
  wrap := fun s => [s]

/-- An environment whose extended-info lookup raises a `RuntimeError` that
does not carry the buffer-too-small marker. -/
def envRaisesOther : CHKEnv where
  getExtendedErrorInfo := fun _ => .raiseRuntimeError "boom" ""
  getErrorString := fun _ => .ret 0 ""
  errorMap := fun _ => none
  wrap := fun s => [s]

/-- An environment whose lookups succeed (leaving `boom` in the buffer) and
whose error table maps `-1` to the symbolic name `SomeError`. -/
def envTableHit : CHKEnv where
  getExtendedErrorInfo := fun _ => .ret 0 "boom"
  getErrorString := fun _ => .ret 0 "boom"
  errorMap := fun c => if c = -1 then some "SomeError" else none
  wrap := fun s => [s]

/-- An environment whose lookups both return the nonzero status `7`
(so `CHK` takes its `if r:` branch) with `garbage` left in the buffer,
and whose error table maps `-1` to `SomeError`. -/
def envLookupFails : CHKEnv where
  getExtendedErrorInfo := fun _ => .ret 7 "garbage"
  getErrorString := fun _ => .ret 7 "garbage"
  errorMap := fun c => if c = -1 then some "SomeError" else none
  wrap := fun s => [s]

/-- An environment whose extended-info call returns the nonzero status `7`
on every attempt — binding the local `r` — after which the error-string
call reports a too-small buffer on every attempt, so the loop exhausts
its capacity with `r` still bound to `7`. -/
def envStaleR : CHKEnv where
  getExtendedErrorInfo := fun _ => .ret 7 ""
  getErrorString := fun _ =>
    .raiseRuntimeError "Buffer is too small to fit the string." ""
  errorMap := fun c => if c = -1 then some "SomeError" else none
  wrap := fun s => [s]

/-- Sanity check against the test suite of `nidaqmx/utils.py`: a contiguous
run of four suffixes compresses to a range form. -/
theorem make_pattern_test_range :
    make_pattern ["Dev1/ao1", "Dev1/ao2", "Dev1/ao3", "Dev1/ao4"] true
      = .ok (some "Dev1/ao1:4") := by decide

/-- Sanity check against the test suite of `nidaqmx/utils.py`: two devices
give a singleton group followed by a range group, in sorted key order. -/
theorem make_pattern_test_two_devices :
    make_pattern ["Dev1/ao1", "Dev1/ao2", "Dev1/ao3", "Dev1/ao4",
      "Dev1/ao5", "Dev1/ao6", "Dev1/ao7", "Dev0/ao1"] true
      = .ok (some "Dev0/ao1,Dev1/ao1:7") := by decide

/-- Sanity check: with every lookup reporting a too-small buffer, `CHK`
ends in the unbound-local error. -/
theorem CHK_test_exhausted :
    CHK envAllTooSmall (-5) "f" "()" = .error .unboundLocalError := by decide

/-- Sanity check: the capacities attempted under constant buffer-too-small
reports double from 3000 up to 768000. -/
theorem attemptSizes_test :
    attemptSizes envAllTooSmall
      = [3000, 6000, 12000, 24000, 48000, 96000, 192000, 384000, 768000] := by decide

/-- Doubling from a positive capacity reaches the `1000000` bound within
`fuel` steps once `1000000 ≤ bufSize * 2 ^ fuel`, so one more unit of fuel
does not change the loop's result. -/
theorem CHKloopF_step (env : CHKEnv) :
    ∀ fuel bs rOpt c, 0 < bs → 1000000 ≤ bs * 2 ^ fuel →
      CHKloopF env (fuel + 1) bs rOpt c = CHKloopF env fuel bs rOpt c := by
  intro fuel
  induction fuel with
  | zero =>
    intro bs rOpt c hpos hbound
    simp only [pow_zero, mul_one] at hbound
    simp [CHKloopF, Nat.not_lt.mpr hbound]
  | succ f ih =>
    intro bs rOpt c hpos hbound
    by_cases hlt : bs < 1000000
    · simp only [CHKloopF, if_pos hlt]
      cases runAttempt env bs with
      | tooSmall rNew c2 =>
        exact ih (bs * 2) _ c2 (by omega) (by rw [mul_assoc, ← pow_succ']; exact hbound)
      | raised m => rfl
      | done r c2 => rfl
    · simp [CHKloopF, hlt]

/-- Any fuel of at least `10` gives the retry loop's true result from the
start state of `CHKloop` (capacity `default_buf_size = 3000`, `r`
unbound): the fuel `20` used in `CHKloop` is irrelevant slack. -/
theorem CHKloopF_fuel_stable (env : CHKEnv) :
    ∀ fuel, 10 ≤ fuel → CHKloopF env fuel default_buf_size none "" = CHKloop env := by
  intro fuel hf
  induction fuel with
  | zero => omega
  | succ f ih =>
    rcases Nat.lt_or_ge f 10 with hf10 | hf10
    · have : f = 9 := by omega
      subst this
      rfl
    · rw [CHKloopF_step env f default_buf_size none "" (by decide)]
      · exact ih hf10
      · calc (1000000 : Nat) ≤ 3000 * 2 ^ 10 := by norm_num
          _ ≤ 3000 * 2 ^ f := Nat.mul_le_mul_left _ (Nat.pow_le_pow_right (by norm_num) hf10)

/-- When every attempt reports a too-small buffer without first assigning
`r` (the extended-info call itself raises), the loop started with `r`
unbound exhausts with `r` still unbound. -/
theorem CHKloopF_all_tooSmall_none (env : CHKEnv)
    (hA : ∀ bs, ∃ c, runAttempt env bs = .tooSmall none c) :
    ∀ fuel bs c0, ∃ c, CHKloopF env fuel bs none c0 = .exhausted none c := by
  intro fuel
  induction fuel with
  | zero => intro bs c0; exact ⟨c0, rfl⟩
  | succ f ih =>
    intro bs c0
    by_cases hlt : bs < 1000000
    · obtain ⟨c2, hc2⟩ := hA bs
      obtain ⟨c3, hc3⟩ := ih (bs * 2) c2
      refine ⟨c3, ?_⟩
      rw [CHKloopF, if_pos hlt]
      simp only [hc2]
      exact hc3
    · exact ⟨c0, by rw [CHKloopF, if_neg hlt]⟩

/-- When every attempt reports a too-small buffer, the attempted
capacities follow the pure doubling schedule. -/
theorem attemptSizesF_all_tooSmall (env : CHKEnv)
    (hA : ∀ bs, ∃ rN c, runAttempt env bs = .tooSmall rN c) :
    ∀ fuel bs, attemptSizesF env fuel bs = doubleSizesF fuel bs := by
  intro fuel
  induction fuel with
  | zero => intro bs; rfl
  | succ f ih =>
    intro bs
    by_cases hlt : bs < 1000000
    · obtain ⟨rN, c, hc⟩ := hA bs
      rw [attemptSizesF, doubleSizesF, if_pos hlt, if_pos hlt]
      simp only [hc]
      rw [ih (bs * 2)]
    · rw [attemptSizesF, doubleSizesF, if_neg hlt, if_neg hlt]

/-- C3 counterexample: in `envStaleR` the error-string lookup reports a
too-small buffer on every attempt, yet — because the extended-info call
first returned the nonzero status `7`, binding the local `r` — capacity
exhaustion runs the ordinary `if r:` block: a positive code writes a
warning and is returned unchanged (nothing is raised at all), and a
negative code raises the driver-kind `NIDAQmxRuntimeError`, not a
binding-internal error. -/
theorem claim_C3_cex :
    (∀ bs, envStaleR.getErrorString bs
      = .raiseRuntimeError "Buffer is too small to fit the string." "") ∧
    CHK envStaleR 5 "f" "()" = .ok (5, ["f() warning: 5\n"]) ∧
    CHK envStaleR (-1) "f" "()" = .error (.nidaqmxRuntimeError
      ("f" ++ "()" ++ " failed with error " ++ "SomeError" ++ "=" ++
        pyStrInt (-1) ++ ": " ++ pyRepr "")) :=
  ⟨fun _ => rfl, by decide, by decide⟩

/-- C3 amended: if the extended-info call itself reports a too-small
buffer on every attempt — so the local `r` is never assigned — `CHK`
terminates after doubling the capacity from 3000 up through 768000 (the
last capacity below the 1000000 bound) and raises the `UnboundLocalError`
of reading the never-assigned `r`: an error of the binding layer itself,
distinguishable by kind from the `NIDAQmxRuntimeError` used for
driver-reported failures.  (When instead the extended-info call returns a
nonzero status and only the error-string call keeps reporting too-small,
the loop still terminates after the same capacities, but exhaustion runs
the bound-`r` block — see the counterexample.) -/
theorem claim_C3_amended (env : CHKEnv) (code : Int) (fn args : String)
    (hc : code ≠ 0)
    (h : ∀ bs, ∃ m c, env.getExtendedErrorInfo bs = .raiseRuntimeError m c ∧
      strInB "Buffer is too small to fit the string" m = true) :
    CHK env code fn args = .error .unboundLocalError ∧
    attemptSizes env = [3000, 6000, 12000, 24000, 48000, 96000, 192000, 384000, 768000] ∧
    ∀ m, (CHKError.unboundLocalError ≠ CHKError.nidaqmxRuntimeError m) := by
  have hA : ∀ bs, ∃ c, runAttempt env bs = .tooSmall none c := by
    intro bs
    obtain ⟨m, c, hm, hb⟩ := h bs
    refine ⟨c, ?_⟩
    unfold runAttempt
    simp only [hm]
    rw [if_pos hb]
  obtain ⟨cf, hcf⟩ := CHKloopF_all_tooSmall_none env hA 20 default_buf_size ""
  refine ⟨?_, ?_, fun m => by simp⟩
  · unfold CHK
    rw [if_neg hc]
    simp only [show CHKloop env = .exhausted none cf from hcf]
  · rw [show attemptSizes env = attemptSizesF env 20 default_buf_size from rfl,
      attemptSizesF_all_tooSmall env
        (fun bs => (hA bs).elim (fun c hc2 => ⟨none, c, hc2⟩)) 20 default_buf_size]
    decide

/-- Witness for C3 at the environment whose extended-info call always
raises buffer-too-small, with code `-5`. -/
theorem claim_C3_amended_witness :
    CHK envAllTooSmall (-5) "f" "()" = .error .unboundLocalError ∧
    attemptSizes envAllTooSmall
      = [3000, 6000, 12000, 24000, 48000, 96000, 192000, 384000, 768000] := by
  have h := claim_C3_amended envAllTooSmall (-5) "f" "()" (by decide)
    (fun _ => ⟨"Buffer is too small to fit the string.", "", rfl, by decide⟩)
  exact ⟨h.1, h.2.1⟩

/-- Every capacity `attemptSizesF` can visit from `3000 * 2 ^ k` is of the
form `3000 * 2 ^ j` with `j ≥ k` and lies below the `1000000` bound. -/
theorem attemptSizesF_mem (env : CHKEnv) :
    ∀ fuel k s, s ∈ attemptSizesF env fuel (3000 * 2 ^ k) →
      ∃ j, k ≤ j ∧ s = 3000 * 2 ^ j ∧ s < 1000000 := by
  intro fuel
  induction fuel with
  | zero => intro k s hs; simp [attemptSizesF] at hs
  | succ f ih =>
    intro k s hs
    rw [attemptSizesF] at hs
    by_cases hlt : 3000 * 2 ^ k < 1000000
    · rw [if_pos hlt] at hs
      rcases List.mem_cons.mp hs with h1 | h2
      · exact ⟨k, le_rfl, h1, h1 ▸ hlt⟩
      · cases hA : runAttempt env (3000 * 2 ^ k) with
        | tooSmall rN c =>
          rw [hA] at h2
          rw [show 3000 * 2 ^ k * 2 = 3000 * 2 ^ (k + 1) by rw [mul_assoc, ← pow_succ]] at h2
          obtain ⟨j, hk, hj⟩ := ih (k + 1) s h2
          exact ⟨j, by omega, hj⟩
        | raised m => rw [hA] at h2; simp at h2
        | done r c2 => rw [hA] at h2; simp at h2
    · rw [if_neg hlt] at hs
      simp at hs

/-- From `3000 * 2 ^ k` the loop can attempt at most `9 - k` capacities
before the doubling passes the `1000000` bound. -/
theorem attemptSizesF_len (env : CHKEnv) :
    ∀ fuel k, (attemptSizesF env fuel (3000 * 2 ^ k)).length ≤ 9 - k := by
  intro fuel
  induction fuel with
  | zero => intro k; simp [attemptSizesF]
  | succ f ih =>
    intro k
    rw [attemptSizesF]
    by_cases hlt : 3000 * 2 ^ k < 1000000
    · have hk8 : k ≤ 8 := by
        by_contra hk
        have h9 : (2 : Nat) ^ 9 ≤ 2 ^ k := Nat.pow_le_pow_right (by norm_num) (by omega)
        have : 3000 * 2 ^ 9 ≤ 3000 * 2 ^ k := Nat.mul_le_mul_left _ h9
        norm_num at this
        omega
      rw [if_pos hlt]
      cases hA : runAttempt env (3000 * 2 ^ k) with
      | tooSmall rN c =>
        rw [show 3000 * 2 ^ k * 2 = 3000 * 2 ^ (k + 1) by rw [mul_assoc, ← pow_succ]]
        have := ih (k + 1)
        simp only [List.length_cons]
        omega
      | raised m => simp; omega
      | done r c2 => simp; omega
    · rw [if_neg hlt]; simp

/-- C9: every capacity handed to a foreign-call attempt by the retry loop of
`CHK` is `3000 * 2 ^ k` for some `k ≤ 8`, is strictly below `1000000`, and
is at most `768000`; the loop makes at most `9` attempts. -/
theorem claim_C9 (env : CHKEnv) :
    (∀ s ∈ attemptSizes env,
      (∃ k, k ≤ 8 ∧ s = 3000 * 2 ^ k) ∧ s < 1000000 ∧ s ≤ 768000) ∧
    (attemptSizes env).length ≤ 9 := by
  constructor
  · intro s hs
    have h0 : s ∈ attemptSizesF env 20 (3000 * 2 ^ 0) := by
      simpa [attemptSizes, default_buf_size] using hs
    obtain ⟨j, _, hsj, hlt⟩ := attemptSizesF_mem env 20 0 s h0
    have hj8 : j ≤ 8 := by
      by_contra hj
      have h9 : (2 : Nat) ^ 9 ≤ 2 ^ j := Nat.pow_le_pow_right (by norm_num) (by omega)
      have : 3000 * 2 ^ 9 ≤ 3000 * 2 ^ j := Nat.mul_le_mul_left _ h9
      rw [← hsj] at this
      norm_num at this
      omega
    refine ⟨⟨j, hj8, hsj⟩, hlt, ?_⟩
    have : 3000 * 2 ^ j ≤ 3000 * 2 ^ 8 := Nat.mul_le_mul_left _ (Nat.pow_le_pow_right (by norm_num) hj8)
    rw [← hsj] at this
    norm_num at this
    omega
  · have := attemptSizesF_len env 20 0
    simpa [attemptSizes, default_buf_size] using this

/-- Witness for C9 at the always-too-small environment and the first
attempted capacity `3000`. -/
theorem claim_C9_witness :
    (∃ k, k ≤ 8 ∧ 3000 = 3000 * 2 ^ k) ∧ 3000 < 1000000 ∧ 3000 ≤ 768000 :=
  (claim_C9 envAllTooSmall).1 3000 (by decide)

/-- C1 counterexample: with a positive status code, `CHK` raises
`NIDAQmxRuntimeError` when the error-string lookup itself raises a
`RuntimeError` without the buffer-too-small marker — the claim asserts a
positive code never raises. -/
theorem claim_C1_cex :
    CHK envRaisesOther 1 "f" "()" = .error (.nidaqmxRuntimeError "boom") := by decide

/-- C1 amended: a zero code never raises, writes nothing, and is returned
unchanged; a negative code always raises; a positive code is returned
unchanged with one diagnostic line whenever the post-loop block runs with
the local `r` bound — after a completed lookup, and equally after
capacity exhaustion with a stale `r` from an earlier extended-info
return; `CHK` raises for a positive code only when the lookup raised a
non-buffer `RuntimeError` (the counterexample) or when the loop exhausted
with `r` never bound (then `UnboundLocalError`, for any nonzero code). -/
theorem claim_C1_amended :
    (∀ env fn args, CHK env 0 fn args = .ok (0, [])) ∧
    (∀ env fn args code, code < 0 → ∃ e, CHK env code fn args = .error e) ∧
    (∀ env fn args code r content, 0 < code → CHKloop env = .got r content →
      ∃ d, CHK env code fn args = .ok (code, [d])) ∧
    (∀ env fn args code r content, 0 < code →
      CHKloop env = .exhausted (some r) content →
      ∃ d, CHK env code fn args = .ok (code, [d])) ∧
    (∀ env fn args code content, code ≠ 0 → CHKloop env = .exhausted none content →
      CHK env code fn args = .error .unboundLocalError) := by
  refine ⟨fun env fn args => by simp [CHK], ?_, ?_, ?_, ?_⟩
  · intro env fn args code hneg
    have hne : code ≠ 0 := by omega
    unfold CHK resolveBound
    rw [if_neg hne]
    repeat' split
    all_goals exact ⟨_, rfl⟩
  · intro env fn args code r content hpos hloop
    have hne : code ≠ 0 := by omega
    unfold CHK resolveBound
    rw [if_neg hne]
    simp only [hloop]
    repeat' split
    all_goals first
      | exact ⟨_, rfl⟩
      | omega
  · intro env fn args code r content hpos hloop
    have hne : code ≠ 0 := by omega
    unfold CHK resolveBound
    rw [if_neg hne]
    simp only [hloop]
    repeat' split
    all_goals first
      | exact ⟨_, rfl⟩
      | omega
  · intro env fn args code content hne hloop
    unfold CHK
    rw [if_neg hne]
    simp only [hloop]

/-- Witness for C1: at a successful-lookup environment code `-3` raises
and code `2` is returned with one diagnostic; at the stale-`r` exhaustion
environment code `2` is likewise returned with one diagnostic; at the
never-bound exhaustion environment code `2` raises `UnboundLocalError`. -/
theorem claim_C1_amended_witness :
    (∃ e, CHK envOkLookup (-3) "f" "()" = .error e) ∧
    (∃ d, CHK envOkLookup 2 "f" "()" = .ok (2, [d])) ∧
    (∃ d, CHK envStaleR 2 "f" "()" = .ok (2, [d])) ∧
    CHK envAllTooSmall 2 "f" "()" = .error .unboundLocalError :=
  ⟨claim_C1_amended.2.1 envOkLookup "f" "()" (-3) (by decide),
   claim_C1_amended.2.2.1 envOkLookup "f" "()" 2 0 "msg" (by decide) rfl,
   claim_C1_amended.2.2.2.1 envStaleR "f" "()" 2 7 "" (by decide) rfl,
   claim_C1_amended.2.2.2.2 envAllTooSmall "f" "()" 2 "" (by decide) rfl⟩

/-- C5 counterexample: for status code `-1`, present in the table as
`SomeError`, with a successful message lookup, the raised error's text is
`funcname`, `args`, a colon and the wrapped message — the symbolic name
`SomeError` does not occur in it, although the claim asserts every raised
error carries the symbolic name. -/
theorem claim_C5_cex :
    CHK envTableHit (-1) "f" "()"
      = .error (.nidaqmxRuntimeError "f():\n  boom\n  ----------") ∧
    strInB "SomeError" "f():\n  boom\n  ----------" = false := by
  constructor
  · decide
  · decide

/-- C5 amended: when `CHK` raises for a negative code after the retry loop
obtained `(r, content)`: if the lookup itself failed (`r ≠ 0`) and the code
is in the table, the error carries the operation name, arguments, symbolic
name, the code and the buffer contents; if `r ≠ 0` and the code is absent
from the table, `CHK` raises `KeyError` instead of passing the raw integer
through; if the lookup succeeded (`r = 0`), the error carries the
operation name, arguments and the wrapped message text, with no symbolic
name. The raw-integer pass-through exists only in the positive-code
warning branch. -/
theorem claim_C5_amended (env : CHKEnv) (fn args : String) (code r : Int) (content : String)
    (hneg : code < 0) (hloop : CHKloop env = .got r content) :
    (r ≠ 0 → ∀ nm, env.errorMap code = some nm →
      CHK env code fn args = .error (.nidaqmxRuntimeError
        (fn ++ args ++ " failed with error " ++ nm ++ "=" ++
          pyStrInt code ++ ": " ++ pyRepr content))) ∧
    (r ≠ 0 → env.errorMap code = none →
      CHK env code fn args = .error (.keyError code)) ∧
    (r = 0 →
      CHK env code fn args = .error (.nidaqmxRuntimeError
        (fn ++ args ++ ":" ++ wrapText env content))) := by
  have hne : code ≠ 0 := by omega
  refine ⟨?_, ?_, ?_⟩
  · intro hr nm hm
    unfold CHK resolveBound
    rw [if_neg hne]
    simp only [hloop]
    rw [if_pos hr, if_pos hneg, hm]
  · intro hr hm
    unfold CHK resolveBound
    rw [if_neg hne]
    simp only [hloop]
    rw [if_pos hr, if_pos hneg, hm]
  · intro hr
    subst hr
    unfold CHK resolveBound
    rw [if_neg hne]
    simp only [hloop]
    rw [if_neg (show ¬ (0 : Int) ≠ 0 by omega), if_pos hneg]

/-! ## Helper lemmas on strings and splitting -/

theorem mk_append (a b : List Char) : String.mk a ++ String.mk b = String.mk (a ++ b) := rfl

theorem mk_toList (s : String) : String.mk s.toList = s := rfl

/-- The head of a non-empty `dropWhile` residue fails the predicate. -/
theorem dropWhile_head_not {α : Type} (p : α → Bool) :
    ∀ (l : List α) (c : α) (rest : List α), l.dropWhile p = c :: rest → p c = false := by
  intro l
  induction l with
  | nil => intro c rest h; simp [List.dropWhile] at h
  | cons x xs ih =>
    intro c rest h
    rw [List.dropWhile_cons] at h
    by_cases hx : p x
    · rw [if_pos hx] at h; exact ih c rest h
    · rw [if_neg hx] at h
      cases h
      simpa using hx

/-- The two halves of `digitSplit` reassemble the word. -/
theorem digitSplit_append (q : String) : (digitSplit q).1 ++ (digitSplit q).2 = q := by
  show String.mk _ ++ String.mk _ = q
  rw [mk_append, List.takeWhile_append_dropWhile, mk_toList]

/-- A successful single split at the first slash reassembles the path. -/
theorem splitSlashOnce_some (q a b : String) (h : splitSlashOnce q = some (a, b)) :
    a ++ "/" ++ b = q := by
  unfold splitSlashOnce at h
  cases hds : q.toList.dropWhile (fun c => c ≠ '/') with
  | nil => rw [hds] at h; cases h
  | cons c rest =>
    rw [hds] at h
    have hc : c = '/' := by
      have := dropWhile_head_not (fun c => c ≠ '/') q.toList c rest hds
      simpa using this
    cases h
    subst hc
    show String.mk (q.toList.takeWhile (fun c => c ≠ '/')) ++ String.mk ['/'] ++ String.mk rest = q
    rw [mk_append, mk_append, List.append_assoc]
    show String.mk (q.toList.takeWhile (fun c => c ≠ '/') ++ ('/' :: rest)) = q
    rw [← hds, List.takeWhile_append_dropWhile, mk_toList]

/-! ## Claim C6: brace wrapping of recursive sub-patterns -/

/-- C6: for every group entry `(pre, lst)` with a non-empty prefix `pre`
and at least two remainders, the output loop recurses on `lst`, and when
the recursive call returns the sub-pattern `sub` it emits `pre` followed
by `sub2`, where `sub2` is `sub` wrapped in curly braces if and only if
`sub` holds a comma (the hypothesis on `sub2` is exactly that
either-or).  Concretely: the spec's twelve-path example yields the braced
`Dev0/ao0:1,Dev1/\x7bai1:3,ao1:7\x7d`, while the comma-free sub-pattern
of `["Dev2/port0/line0", "Dev2/port0/line1"]` is emitted without braces
as `Dev2/port0/line0:1`. -/
theorem claim_C6 (recur : List String → Except PyErr (Option String))
    (orig : List String) (flag main : Bool) (pre x y : String) (l : List String)
    (rest : List (String × List String)) (acc : List String) (sub sub2 : String)
    (hpre : pre ≠ "") (hrec : recur (x :: y :: l) = .ok (some sub))
    (hsub2 : sub2 = if sub.toList.contains ',' = true
      then "\x7b" ++ sub ++ "\x7d" else sub) :
    (goF recur orig flag main ((pre, x :: y :: l) :: rest) acc
      = goF recur orig flag main rest
          ((pre ++ (if flag then sub2 else "/" ++ sub2)) :: acc)) ∧
    make_pattern ["Dev1/ao1", "Dev1/ao2", "Dev1/ao3", "Dev1/ao4", "Dev1/ao5",
      "Dev1/ao6", "Dev1/ao7", "Dev0/ao1", "Dev0/ao0",
      "Dev1/ai1", "Dev1/ai2", "Dev1/ai3"] true
      = .ok (some "Dev0/ao0:1,Dev1/\x7bai1:3,ao1:7\x7d") ∧
    make_pattern ["Dev2/port0/line0", "Dev2/port0/line1"] true
      = .ok (some "Dev2/port0/line0:1") := by
  refine ⟨?_, by decide, by decide⟩
  simp only [goF]
  rw [if_pos hpre]
  simp only [hrec]
  rw [← hsub2]

/-- Witness for C6: a sub-pattern holding a comma is brace-wrapped before
being appended under its prefix; the two concrete compressions of the
claim evaluate as stated. -/
theorem claim_C6_witness :
    (goF (fun _ => Except.ok (some "0,1")) [] false false [("a", ["x", "y"])] []
      = goF (fun _ => Except.ok (some "0,1")) [] false false [] ["a/\x7b0,1\x7d"]) ∧
    make_pattern ["Dev1/ao1", "Dev1/ao2", "Dev1/ao3", "Dev1/ao4", "Dev1/ao5",
      "Dev1/ao6", "Dev1/ao7", "Dev0/ao1", "Dev0/ao0",
      "Dev1/ai1", "Dev1/ai2", "Dev1/ai3"] true
      = .ok (some "Dev0/ao0:1,Dev1/\x7bai1:3,ao1:7\x7d") ∧
    make_pattern ["Dev2/port0/line0", "Dev2/port0/line1"] true
      = .ok (some "Dev2/port0/line0:1") :=
  claim_C6 (fun _ => Except.ok (some "0,1")) [] false false "a" "x" "y" [] [] []
    "0,1" "\x7b0,1\x7d" (by decide) rfl (by decide)

/-! ## Claim C4: the ambiguity fallback -/

/-- C4 counterexample: for the input `["0", "2"]` — one branch (the empty
prefix) with two pure-integer suffixes whose values are not contiguous —
`make_pattern` returns Python `None`, not the comma-joined input `"0,2"`
the claim requires. -/
theorem claim_C4_cex :
    make_pattern ["0", "2"] true = .ok none ∧
    (Except.ok none : Except PyErr (Option String)) ≠ .ok (some "0,2") := by
  exact ⟨by decide, by decide⟩

/-- In non-main mode the output loop never consults `orig`; if it yields
Python `None`, the same loop in main mode yields the comma-joined original
paths — provided no group carries the empty prefix (an empty-prefix group
with a non-contiguous integer set returns `None` in both modes). -/
theorem goF_none_main (recur : List String → Except PyErr (Option String))
    (orig : List String) (flag : Bool) :
    ∀ (groups : List (String × List String)) (acc : List String),
      (∀ vs, ("", vs) ∉ groups) →
      goF recur orig flag false groups acc = .ok none →
      goF recur orig flag true groups acc = .ok (some (String.intercalate "," orig)) := by
  intro groups
  induction groups with
  | nil => intro acc hvs h; simp [goF] at h
  | cons hd rest ih =>
    obtain ⟨pre, lst⟩ := hd
    intro acc hvs h
    have hvs' : ∀ vs, ("", vs) ∉ rest := fun vs hmem => hvs vs (List.mem_cons_of_mem _ hmem)
    match lst with
    | [] =>
      simp only [goF] at h ⊢
      exact ih _ hvs' h
    | [x] =>
      simp only [goF] at h ⊢
      exact ih _ hvs' h
    | x :: y :: l =>
      by_cases hpre : pre = ""
      · subst hpre
        exact absurd (List.mem_cons_self _ _) (hvs (x :: y :: l))
      · simp only [goF, if_pos hpre] at h ⊢
        cases hrec : recur (x :: y :: l) with
        | error e => simp [hrec] at h
        | ok osub =>
          cases osub with
          | none => simp [hrec] at h ⊢
          | some sub =>
            simp only [hrec] at h ⊢
            exact ih _ hvs' h

/-- C4 amended: when the non-contiguous integer branch sits under a
non-empty prefix (so it is reached through the recursive call), the whole
call indeed aborts and returns the comma-joined original input; but when
the branch is the top-level empty-prefix group (bare numeric tokens), the
call returns Python `None` instead, as the counterexample shows. -/
theorem claim_C4_amended (paths : List String) (st : GroupState)
    (hg : groupPaths paths = .ok st) (hkeys : ∀ vs, ("", vs) ∉ st.patterns)
    (hnone : make_pattern paths false = .ok none) :
    make_pattern paths true = .ok (some (String.intercalate "," paths)) := by
  unfold make_pattern at hnone ⊢
  rw [mpF] at hnone ⊢
  simp only [hg] at hnone ⊢
  exact goF_none_main _ _ _ _ _ hkeys hnone

/-- Witness for C4 at `["Dev1/ao1", "Dev1/ao3"]`: the `Dev1` group's
suffixes `1, 3` are not contiguous, so the call returns the comma-joined
input. -/
theorem claim_C4_amended_witness :
    make_pattern ["Dev1/ao1", "Dev1/ao3"] true
      = .ok (some (String.intercalate "," ["Dev1/ao1", "Dev1/ao3"])) :=
  claim_C4_amended ["Dev1/ao1", "Dev1/ao3"] ⟨[("Dev1", ["ao1", "ao3"])], false⟩
    (by decide) (by intro vs h; simp at h) (by decide)

/-! ## Claim C10: single-element inputs -/

/-- C10: on a one-element list the compressor is the identity up to
stripping one leading slash (`stripSlash` is exactly
`path[1:] if path.startswith('/') else path`). -/
theorem claim_C10 (p : String) : make_pattern [p] true = .ok (some (stripSlash p)) := by
  unfold make_pattern
  rw [mpF]
  cases hsp : splitSlashOnce (stripSlash p) with
  | some ab =>
    obtain ⟨a, b⟩ := ab
    have hgr : groupPaths [p] = .ok ⟨[(a, [b])], false⟩ := by
      simp [groupPaths, List.foldlM, processPath, hsp, insertGroup]
    simp only [hgr]
    show Except.ok (some (a ++ ("/" ++ b))) = Except.ok (some (stripSlash p))
    rw [← String.append_assoc, splitSlashOnce_some _ _ _ hsp]
  | none =>
    have hgr : groupPaths [p]
        = .ok ⟨[((digitSplit (stripSlash p)).1, [(digitSplit (stripSlash p)).2])], true⟩ := by
      simp [groupPaths, List.foldlM, processPath, hsp, insertGroup]
    simp only [hgr]
    show Except.ok (some ((digitSplit (stripSlash p)).1 ++ (digitSplit (stripSlash p)).2))
        = Except.ok (some (stripSlash p))
    rw [digitSplit_append]

/-! ## Claim C8: when the assertion fires -/

theorem insertStr_ne_nil (v : String) (l : List String) : insertStr v l ≠ [] := by
  cases l with
  | nil => simp [insertStr]
  | cons x xs =>
    simp only [insertStr]
    split
    · simp
    · split <;> simp

theorem insertGroup_ne_nil (k v : String) (l : List (String × List String)) :
    insertGroup k v l ≠ [] := by
  cases l with
  | nil => simp [insertGroup]
  | cons hd rest =>
    obtain ⟨k2, vs⟩ := hd
    simp only [insertGroup]
    split
    · simp
    · split <;> simp

/-- On a bare token `processPath` runs the assertion and, if it passes,
inserts the digit split and sets the flag. -/
theorem processPath_bare (st : GroupState) (p : String) (hb : isBareTok p = true) :
    processPath st p =
      if st.patterns ≠ [] ∧ st.flag = false then .error .assertionError
      else .ok ⟨insertGroup (digitSplit (stripSlash p)).1
        (digitSplit (stripSlash p)).2 st.patterns, true⟩ := by
  have hs : splitSlashOnce (stripSlash p) = none := by
    unfold isBareTok at hb
    exact Option.isNone_iff_eq_none.mp hb
  simp only [processPath, hs]

/-- On a multi-segment path `processPath` inserts the slash split and leaves
the flag unchanged; it never raises. -/
theorem processPath_multi (st : GroupState) (p : String) (hb : isBareTok p = false) :
    ∃ a b, splitSlashOnce (stripSlash p) = some (a, b) ∧
      processPath st p = .ok ⟨insertGroup a b st.patterns, st.flag⟩ := by
  cases hs : splitSlashOnce (stripSlash p) with
  | none =>
    unfold isBareTok at hb
    rw [hs] at hb
    simp at hb
  | some ab =>
    obtain ⟨a, b⟩ := ab
    exact ⟨a, b, rfl, by simp only [processPath, hs]⟩

theorem groupFold_nil (st : GroupState) :
    List.foldlM processPath st ([] : List String) = .ok st := rfl

theorem groupFold_cons (st st2 : GroupState) (p : String) (rest : List String)
    (h : processPath st p = .ok st2) :
    List.foldlM processPath st (p :: rest) = List.foldlM processPath st2 rest := by
  show processPath st p >>= (fun s2 => List.foldlM processPath s2 rest) = _
  rw [h]
  rfl

theorem groupFold_cons_err (st : GroupState) (p : String) (e : PyErr) (rest : List String)
    (h : processPath st p = .error e) :
    List.foldlM processPath st (p :: rest) = .error e := by
  show processPath st p >>= (fun s2 => List.foldlM processPath s2 rest) = _
  rw [h]
  rfl

/-- Once the flag is set the grouping loop can never raise again. -/
theorem groupFold_flag_true :
    ∀ (paths : List String) (st : GroupState), st.flag = true →
      ∃ st2, List.foldlM processPath st paths = .ok st2 := by
  intro paths
  induction paths with
  | nil => intro st _; exact ⟨st, rfl⟩
  | cons p rest ih =>
    intro st hf
    cases hb : isBareTok p with
    | true =>
      have hp : processPath st p
          = .ok ⟨insertGroup (digitSplit (stripSlash p)).1
              (digitSplit (stripSlash p)).2 st.patterns, true⟩ := by
        rw [processPath_bare st p hb, if_neg (by simp [hf])]
      obtain ⟨st2, h2⟩ := ih ⟨insertGroup (digitSplit (stripSlash p)).1
        (digitSplit (stripSlash p)).2 st.patterns, true⟩ rfl
      exact ⟨st2, by rw [groupFold_cons _ _ _ _ hp]; exact h2⟩
    | false =>
      obtain ⟨a, b, _, hp⟩ := processPath_multi st p hb
      obtain ⟨st2, h2⟩ := ih ⟨insertGroup a b st.patterns, st.flag⟩ hf
      exact ⟨st2, by rw [groupFold_cons _ _ _ _ hp]; exact h2⟩

/-- From a state with a populated dict and an unset flag, the grouping loop
raises the assertion exactly when some remaining token is bare. -/
theorem groupFold_assert_iff :
    ∀ (paths : List String) (st : GroupState), st.patterns ≠ [] → st.flag = false →
      (List.foldlM processPath st paths = .error .assertionError ↔
        ∃ q ∈ paths, isBareTok q = true) := by
  intro paths
  induction paths with
  | nil =>
    intro st _ _
    constructor
    · intro h; rw [groupFold_nil] at h; cases h
    · rintro ⟨q, hq, _⟩; cases hq
  | cons p rest ih =>
    intro st hne hf
    cases hb : isBareTok p with
    | true =>
      have hp : processPath st p = .error .assertionError := by
        rw [processPath_bare st p hb, if_pos ⟨hne, hf⟩]
      rw [groupFold_cons_err _ _ _ _ hp]
      constructor
      · intro _; exact ⟨p, List.mem_cons_self _ _, hb⟩
      · intro _; rfl
    | false =>
      obtain ⟨a, b, _, hp⟩ := processPath_multi st p hb
      rw [groupFold_cons _ _ _ _ hp]
      rw [ih ⟨insertGroup a b st.patterns, st.flag⟩ (insertGroup_ne_nil _ _ _) hf]
      constructor
      · rintro ⟨q, hq, hbq⟩; exact ⟨q, List.mem_cons_of_mem _ hq, hbq⟩
      · rintro ⟨q, hq, hbq⟩
        rcases List.mem_cons.mp hq with rfl | hq2
        · rw [hb] at hbq; cases hbq
        · exact ⟨q, hq2, hbq⟩

/-- The grouping loop of one `make_pattern` call raises the assertion
exactly when the first path is multi-segment and some later token is bare:
equivalently, a bare token is met after at least one processed path with no
earlier bare token. -/
theorem groupPaths_assert_iff (paths : List String) :
    groupPaths paths = .error .assertionError ↔
      ∃ hd tl, paths = hd :: tl ∧ isBareTok hd = false ∧ ∃ q ∈ tl, isBareTok q = true := by
  cases paths with
  | nil =>
    constructor
    · intro h; exact Except.noConfusion h
    · rintro ⟨hd, tl, h, _⟩; cases h
  | cons p rest =>
    unfold groupPaths
    cases hb : isBareTok p with
    | true =>
      have hp : processPath ⟨[], false⟩ p
          = .ok ⟨insertGroup (digitSplit (stripSlash p)).1
              (digitSplit (stripSlash p)).2 [], true⟩ := by
        rw [processPath_bare _ p hb, if_neg (by simp)]
      rw [groupFold_cons _ _ _ _ hp]
      constructor
      · intro h
        obtain ⟨st2, h2⟩ := groupFold_flag_true rest
          ⟨insertGroup (digitSplit (stripSlash p)).1 (digitSplit (stripSlash p)).2 [], true⟩ rfl
        rw [h2] at h
        cases h
      · rintro ⟨hd, tl, heq, hbf, _⟩
        injection heq with h1 _
        subst h1
        rw [hb] at hbf
        cases hbf
    | false =>
      obtain ⟨a, b, _, hp⟩ := processPath_multi ⟨[], false⟩ p hb
      rw [groupFold_cons _ _ _ _ hp]
      rw [groupFold_assert_iff rest _ (insertGroup_ne_nil _ _ _) rfl]
      constructor
      · rintro ⟨q, hq, hbq⟩; exact ⟨p, rest, rfl, hb, q, hq, hbq⟩
      · rintro ⟨hd, tl, heq, _, q, hq, hbq⟩
        injection heq with h1 h2
        subst h1
        subst h2
        exact ⟨q, hq, hbq⟩

/-- C8 counterexample: in `["a1", "Dev1/x", "b2"]` the bare token `b2` is
encountered after the multi-segment path `Dev1/x` has been processed in the
same call, yet no assertion fires — the call returns a string — because an
earlier bare token (`a1`) already set the flag. -/
theorem claim_C8_cex :
    make_pattern ["a1", "Dev1/x", "b2"] true = .ok (some "Dev1x,a1,b2") ∧
    (Except.ok (some "Dev1x,a1,b2") : Except PyErr (Option String))
      ≠ .error .assertionError := by
  exact ⟨by decide, by decide⟩

/-- C8 amended: the grouping loop raises `AssertionError` exactly when a
bare token is encountered after at least one processed path and no earlier
bare token — i.e. the first path is multi-segment and some later token is
bare; when the loop raises, the whole `make_pattern` call raises.  (With a
bare token first the loop never asserts, but the call may still return
`None` or propagate an assertion from a recursive sub-call.) -/
theorem claim_C8_amended (paths : List String) :
    (groupPaths paths = .error .assertionError ↔
      ∃ hd tl, paths = hd :: tl ∧ isBareTok hd = false ∧ ∃ q ∈ tl, isBareTok q = true) ∧
    (groupPaths paths = .error .assertionError →
      ∀ m : Bool, make_pattern paths m = .error .assertionError) := by
  refine ⟨groupPaths_assert_iff paths, ?_⟩
  intro h m
  unfold make_pattern
  rw [mpF]
  simp only [h]

/-- Witness for C8: the multi-then-bare input `["Dev1/x", "a1"]` satisfies
the shape condition and indeed raises the assertion. -/
theorem claim_C8_amended_witness :
    make_pattern ["Dev1/x", "a1"] true = .error .assertionError :=
  (claim_C8_amended ["Dev1/x", "a1"]).2 (by decide) true

/-! ## Claim C7: order- and duplicate-independence

The grouping dict and its value sets are canonical (sorted association
list, sorted duplicate-free value lists), so two path lists with the same
member set produce the same `GroupState` whenever neither grouping loop
asserts.  The lemmas below establish the strict-order facts for `strLtB`,
the membership and sortedness behaviour of `insertStr` / `insertGroup`,
and extensionality of well-formed group structures. -/

theorem listLtB_irrefl : ∀ l : List Char, listLtB l l = false := by
  intro l
  induction l with
  | nil => rfl
  | cons x xs ih => simp [listLtB, ih]

theorem listLtB_trans : ∀ (a b c : List Char),
    listLtB a b = true → listLtB b c = true → listLtB a c = true := by
  intro a
  induction a with
  | nil =>
    intro b c hab hbc
    cases b with
    | nil => simp [listLtB] at hab
    | cons y bs =>
      cases c with
      | nil => simp [listLtB] at hbc
      | cons z cs => simp [listLtB]
  | cons x xs ih =>
    intro b c hab hbc
    cases b with
    | nil => simp [listLtB] at hab
    | cons y bs =>
      cases c with
      | nil => simp [listLtB] at hbc
      | cons z cs =>
        simp only [listLtB] at hab hbc ⊢
        by_cases hxy : x.toNat < y.toNat
        · by_cases hyz : y.toNat < z.toNat
          · rw [if_pos (show x.toNat < z.toNat by omega)]
          · by_cases hzy : z.toNat < y.toNat
            · rw [if_neg hyz, if_pos hzy] at hbc; cases hbc
            · rw [if_pos (show x.toNat < z.toNat by omega)]
        · by_cases hyx : y.toNat < x.toNat
          · rw [if_neg hxy, if_pos hyx] at hab; cases hab
          · rw [if_neg hxy, if_neg hyx] at hab
            by_cases hyz : y.toNat < z.toNat
            · rw [if_pos (show x.toNat < z.toNat by omega)]
            · by_cases hzy : z.toNat < y.toNat
              · rw [if_neg hyz, if_pos hzy] at hbc; cases hbc
              · rw [if_neg hyz, if_neg hzy] at hbc
                rw [if_neg (show ¬ x.toNat < z.toNat by omega),
                  if_neg (show ¬ z.toNat < x.toNat by omega)]
                exact ih bs cs hab hbc

theorem listLtB_eq_of_not : ∀ (a b : List Char),
    listLtB a b = false → listLtB b a = false → a = b := by
  intro a
  induction a with
  | nil =>
    intro b hab _
    cases b with
    | nil => rfl
    | cons y bs => simp [listLtB] at hab
  | cons x xs ih =>
    intro b hab hba
    cases b with
    | nil => simp [listLtB] at hba
    | cons y bs =>
      simp only [listLtB] at hab hba
      by_cases hxy : x.toNat < y.toNat
      · rw [if_pos hxy] at hab; cases hab
      · by_cases hyx : y.toNat < x.toNat
        · rw [if_pos hyx] at hba; cases hba
        · rw [if_neg hxy, if_neg hyx] at hab
          rw [if_neg hyx, if_neg hxy] at hba
          have hxyeq : x.toNat = y.toNat := by omega
          rw [show x = y from Char.ext (UInt32.ext hxyeq), ih bs hab hba]

theorem strLtB_irrefl (s : String) : strLtB s s = false := listLtB_irrefl _

theorem strLtB_trans (a b c : String) (h1 : strLtB a b = true) (h2 : strLtB b c = true) :
    strLtB a c = true := listLtB_trans _ _ _ h1 h2

theorem strLtB_eq_of_not (a b : String) (h1 : strLtB a b = false) (h2 : strLtB b a = false) :
    a = b := by
  have h := listLtB_eq_of_not _ _ h1 h2
  rw [← mk_toList a, ← mk_toList b, h]

theorem strLtB_total_of_ne (a b : String) (hne : a ≠ b) (h : strLtB a b = false) :
    strLtB b a = true := by
  cases hba : strLtB b a with
  | true => rfl
  | false => exact absurd (strLtB_eq_of_not a b h hba) hne

theorem strLtB_asymm (a b : String) (h : strLtB a b = true) : strLtB b a = false := by
  cases hba : strLtB b a with
  | false => rfl
  | true =>
    have := strLtB_trans a b a h hba
    rw [strLtB_irrefl] at this
    cases this

theorem bool_eq_false {b : Bool} (h : ¬ b = true) : b = false := by
  cases b
  · rfl
  · exact absurd rfl h

theorem mem_insertStr (v x : String) : ∀ l : List String,
    (x ∈ insertStr v l ↔ x = v ∨ x ∈ l) := by
  intro l
  induction l with
  | nil => simp [insertStr]
  | cons y ys ih =>
    simp only [insertStr]
    by_cases hvy : v = y
    · rw [if_pos hvy]
      subst hvy
      constructor
      · exact fun h => Or.inr h
      · rintro (rfl | h)
        · exact List.mem_cons_self _ _
        · exact h
    · rw [if_neg hvy]
      by_cases hlt : strLtB v y = true
      · rw [if_pos hlt]
        simp only [List.mem_cons]
      · rw [if_neg hlt]
        simp only [List.mem_cons, ih]
        tauto

theorem sorted_insertStr (v : String) : ∀ l : List String,
    SortedStrs l → SortedStrs (insertStr v l) := by
  intro l
  induction l with
  | nil => intro _; simp [insertStr, SortedStrs]
  | cons y ys ih =>
    intro hs
    obtain ⟨hy, hys⟩ := List.pairwise_cons.mp hs
    simp only [insertStr]
    by_cases hvy : v = y
    · rw [if_pos hvy]
      subst hvy
      exact List.pairwise_cons.mpr ⟨hy, hys⟩
    · rw [if_neg hvy]
      by_cases hlt : strLtB v y = true
      · rw [if_pos hlt]
        refine List.pairwise_cons.mpr ⟨?_, List.pairwise_cons.mpr ⟨hy, hys⟩⟩
        intro z hz
        rcases List.mem_cons.mp hz with rfl | hz2
        · exact hlt
        · exact strLtB_trans v y z hlt (hy z hz2)
      · rw [if_neg hlt]
        refine List.pairwise_cons.mpr ⟨?_, ih hys⟩
        intro z hz
        rcases (mem_insertStr v z ys).mp hz with hzv | hz2
        · rw [hzv]
          exact strLtB_total_of_ne v y hvy (bool_eq_false hlt)
        · exact hy z hz2

theorem groupMem_insertGroup (k v k2 v2 : String) : ∀ l : List (String × List String),
    (groupMem k2 v2 (insertGroup k v l) ↔ (k2 = k ∧ v2 = v) ∨ groupMem k2 v2 l) := by
  intro l
  induction l with
  | nil =>
    simp only [insertGroup]
    constructor
    · rintro ⟨ws, hw, hv⟩
      rcases List.mem_singleton.mp hw with heq
      injection heq with h1 h2
      rw [h2] at hv
      exact Or.inl ⟨h1, List.mem_singleton.mp hv⟩
    · rintro (⟨rfl, rfl⟩ | ⟨ws, hw, _⟩)
      · exact ⟨[v2], List.mem_singleton_self _, List.mem_singleton_self _⟩
      · exact absurd hw (List.not_mem_nil _)
  | cons hd rest ih =>
    obtain ⟨ky, vs⟩ := hd
    simp only [insertGroup]
    by_cases hk : k = ky
    · rw [if_pos hk]
      constructor
      · rintro ⟨ws, hw, hv⟩
        rcases List.mem_cons.mp hw with heq | hmem
        · injection heq with h1 h2
          rw [h2] at hv
          rcases (mem_insertStr v v2 vs).mp hv with hveq | hv2
          · exact Or.inl ⟨h1.trans hk.symm, hveq⟩
          · exact Or.inr ⟨vs, List.mem_cons.mpr (Or.inl (by rw [h1])), hv2⟩
        · exact Or.inr ⟨ws, List.mem_cons_of_mem _ hmem, hv⟩
      · rintro (⟨hk2, hv2⟩ | ⟨ws, hw, hv⟩)
        · exact ⟨insertStr v vs, List.mem_cons.mpr (Or.inl (by rw [hk2, hk])),
            (mem_insertStr v v2 vs).mpr (Or.inl hv2)⟩
        · rcases List.mem_cons.mp hw with heq | hmem
          · injection heq with h1 h2
            exact ⟨insertStr v vs, List.mem_cons.mpr (Or.inl (by rw [h1])),
              (mem_insertStr v v2 vs).mpr (Or.inr (h2 ▸ hv))⟩
          · exact ⟨ws, List.mem_cons_of_mem _ hmem, hv⟩
    · rw [if_neg hk]
      by_cases hlt : strLtB k ky = true
      · rw [if_pos hlt]
        constructor
        · rintro ⟨ws, hw, hv⟩
          rcases List.mem_cons.mp hw with heq | hmem
          · injection heq with h1 h2
            rw [h2] at hv
            exact Or.inl ⟨h1, List.mem_singleton.mp hv⟩
          · exact Or.inr ⟨ws, hmem, hv⟩
        · rintro (⟨rfl, rfl⟩ | ⟨ws, hw, hv⟩)
          · exact ⟨[v2], List.mem_cons.mpr (Or.inl rfl), List.mem_singleton_self _⟩
          · exact ⟨ws, List.mem_cons_of_mem _ hw, hv⟩
      · rw [if_neg hlt]
        constructor
        · rintro ⟨ws, hw, hv⟩
          rcases List.mem_cons.mp hw with heq | hmem
          · exact Or.inr ⟨ws, List.mem_cons.mpr (Or.inl heq), hv⟩
          · rcases (ih).mp ⟨ws, hmem, hv⟩ with h | ⟨us, hu, hv2⟩
            · exact Or.inl h
            · exact Or.inr ⟨us, List.mem_cons_of_mem _ hu, hv2⟩
        · rintro (⟨hk2, hv2⟩ | ⟨ws, hw, hv⟩)
          · obtain ⟨us, hu, hv3⟩ := (ih).mpr (Or.inl ⟨hk2, hv2⟩)
            exact ⟨us, List.mem_cons_of_mem _ hu, hv3⟩
          · rcases List.mem_cons.mp hw with heq | hmem
            · exact ⟨ws, List.mem_cons.mpr (Or.inl heq), hv⟩
            · obtain ⟨us, hu, hv3⟩ := (ih).mpr (Or.inr ⟨ws, hmem, hv⟩)
              exact ⟨us, List.mem_cons_of_mem _ hu, hv3⟩

/-- Every entry of `insertGroup k v l` has key `k` or a key already in `l`. -/
theorem insertGroup_key_of_mem (k v : String) : ∀ (l : List (String × List String)) e,
    e ∈ insertGroup k v l → e.1 = k ∨ ∃ vs, (e.1, vs) ∈ l := by
  intro l
  induction l with
  | nil =>
    intro e he
    rcases List.mem_singleton.mp he with rfl
    exact Or.inl rfl
  | cons hd rest ih =>
    obtain ⟨ky, vs⟩ := hd
    intro e he
    simp only [insertGroup] at he
    by_cases hk : k = ky
    · rw [if_pos hk] at he
      rcases List.mem_cons.mp he with rfl | he2
      · exact Or.inl hk.symm
      · exact Or.inr ⟨e.2, List.mem_cons_of_mem _ he2⟩
    · rw [if_neg hk] at he
      by_cases hlt : strLtB k ky = true
      · rw [if_pos hlt] at he
        rcases List.mem_cons.mp he with rfl | he2
        · exact Or.inl rfl
        · exact Or.inr ⟨e.2, he2⟩
      · rw [if_neg hlt] at he
        rcases List.mem_cons.mp he with rfl | he2
        · exact Or.inr ⟨vs, List.mem_cons_self _ _⟩
        · rcases ih e he2 with h | ⟨ws, hw⟩
          · exact Or.inl h
          · exact Or.inr ⟨ws, List.mem_cons_of_mem _ hw⟩

theorem groupWF_insertGroup (k v : String) : ∀ l : List (String × List String),
    GroupWF l → GroupWF (insertGroup k v l) := by
  intro l
  induction l with
  | nil =>
    intro _
    constructor
    · simp [insertGroup]
    · intro e he
      rcases List.mem_singleton.mp he with rfl
      exact ⟨by simp [SortedStrs], by simp⟩
  | cons hd rest ih =>
    obtain ⟨ky, vs⟩ := hd
    intro hwf
    obtain ⟨hkeys, hvals⟩ := hwf
    rw [List.pairwise_cons] at hkeys
    obtain ⟨hky, hkeys2⟩ := hkeys
    simp only [insertGroup]
    by_cases hk : k = ky
    · rw [if_pos hk]
      constructor
      · exact List.pairwise_cons.mpr ⟨hky, hkeys2⟩
      · intro e he
        rcases List.mem_cons.mp he with rfl | he2
        · exact ⟨sorted_insertStr v vs (hvals (ky, vs) (List.mem_cons_self _ _)).1,
            insertStr_ne_nil v vs⟩
        · exact hvals e (List.mem_cons_of_mem _ he2)
    · rw [if_neg hk]
      by_cases hlt : strLtB k ky = true
      · rw [if_pos hlt]
        constructor
        · refine List.pairwise_cons.mpr ⟨?_, List.pairwise_cons.mpr ⟨hky, hkeys2⟩⟩
          intro e he
          rcases List.mem_cons.mp he with rfl | he2
          · exact hlt
          · exact strLtB_trans k ky e.1 hlt (hky e he2)
        · intro e he
          rcases List.mem_cons.mp he with rfl | he2
          · exact ⟨by simp [SortedStrs], by simp⟩
          · exact hvals e he2
      · rw [if_neg hlt]
        have hrest : GroupWF (insertGroup k v rest) :=
          ih ⟨hkeys2, fun e he => hvals e (List.mem_cons_of_mem _ he)⟩
        constructor
        · refine List.pairwise_cons.mpr ⟨?_, hrest.1⟩
          intro e he
          rcases insertGroup_key_of_mem k v rest e he with hek | ⟨ws, hw⟩
          · rw [hek]
            exact strLtB_total_of_ne k ky hk (bool_eq_false hlt)
          · exact hky (e.1, ws) hw
        · intro e he
          rcases List.mem_cons.mp he with rfl | he2
          · exact hvals (ky, vs) (List.mem_cons_self _ _)
          · exact hrest.2 e he2

/-- Two strictly sorted string lists with the same members are equal. -/
theorem sortedStrs_ext : ∀ (l1 l2 : List String), SortedStrs l1 → SortedStrs l2 →
    (∀ x, x ∈ l1 ↔ x ∈ l2) → l1 = l2 := by
  intro l1
  induction l1 with
  | nil =>
    intro l2 _ _ hm
    cases l2 with
    | nil => rfl
    | cons y ys => exact absurd ((hm y).mpr (List.mem_cons_self _ _)) (List.not_mem_nil _)
  | cons x xs ih =>
    intro l2 h1 h2 hm
    cases l2 with
    | nil => exact absurd ((hm x).mp (List.mem_cons_self _ _)) (List.not_mem_nil _)
    | cons y ys =>
      obtain ⟨hx, hxs⟩ := List.pairwise_cons.mp h1
      obtain ⟨hy, hys⟩ := List.pairwise_cons.mp h2
      have hxy : x = y := by
        rcases List.mem_cons.mp ((hm x).mp (List.mem_cons_self _ _)) with h | hxin
        · exact h
        · rcases List.mem_cons.mp ((hm y).mpr (List.mem_cons_self _ _)) with h | hyin
          · exact h.symm
          · have ha := hy x hxin
            have hb := hx y hyin
            have hc := strLtB_trans x y x hb ha
            rw [strLtB_irrefl] at hc
            cases hc
      subst hxy
      have htail : ∀ z, z ∈ xs ↔ z ∈ ys := by
        intro z
        constructor
        · intro hz
          rcases List.mem_cons.mp ((hm z).mp (List.mem_cons_of_mem _ hz)) with heq | h
          · rw [heq] at hz
            have := hx x hz
            rw [strLtB_irrefl] at this
            cases this
          · exact h
        · intro hz
          rcases List.mem_cons.mp ((hm z).mpr (List.mem_cons_of_mem _ hz)) with heq | h
          · rw [heq] at hz
            have := hy x hz
            rw [strLtB_irrefl] at this
            cases this
          · exact h
      rw [ih ys hxs hys htail]

/-- Two well-formed group structures recording the same `(key, value)`
pairs are equal. -/
theorem groups_ext : ∀ (l1 l2 : List (String × List String)), GroupWF l1 → GroupWF l2 →
    (∀ k v, groupMem k v l1 ↔ groupMem k v l2) → l1 = l2 := by
  intro l1
  induction l1 with
  | nil =>
    intro l2 _ h2 hm
    cases l2 with
    | nil => rfl
    | cons e es =>
      obtain ⟨k0, vs0⟩ := e
      obtain ⟨_, hne0⟩ := h2.2 (k0, vs0) (List.mem_cons_self _ _)
      obtain ⟨v0, hv0⟩ := List.exists_mem_of_ne_nil _ hne0
      obtain ⟨ws, hw, _⟩ := (hm k0 v0).mpr ⟨vs0, List.mem_cons_self _ _, hv0⟩
      exact absurd hw (List.not_mem_nil _)
  | cons e1 es1 ih =>
    intro l2 h1 h2 hm
    obtain ⟨k1, vs1⟩ := e1
    cases l2 with
    | nil =>
      obtain ⟨_, hne1⟩ := h1.2 (k1, vs1) (List.mem_cons_self _ _)
      obtain ⟨v1, hv1⟩ := List.exists_mem_of_ne_nil _ hne1
      obtain ⟨ws, hw, _⟩ := (hm k1 v1).mp ⟨vs1, List.mem_cons_self _ _, hv1⟩
      exact absurd hw (List.not_mem_nil _)
    | cons e2 es2 =>
      obtain ⟨k2, vs2⟩ := e2
      obtain ⟨hk1, hkeys1⟩ := List.pairwise_cons.mp h1.1
      obtain ⟨hk2, hkeys2⟩ := List.pairwise_cons.mp h2.1
      obtain ⟨hsv1, hnev1⟩ := h1.2 (k1, vs1) (List.mem_cons_self _ _)
      obtain ⟨hsv2, hnev2⟩ := h2.2 (k2, vs2) (List.mem_cons_self _ _)
      obtain ⟨v1, hv1⟩ := List.exists_mem_of_ne_nil _ hnev1
      obtain ⟨v2, hv2⟩ := List.exists_mem_of_ne_nil _ hnev2
      have hk12 : k1 = k2 := by
        obtain ⟨ws, hw, _⟩ := (hm k1 v1).mp ⟨vs1, List.mem_cons_self _ _, hv1⟩
        rcases List.mem_cons.mp hw with heq | hmem
        · exact congrArg Prod.fst heq
        · obtain ⟨us, hu, _⟩ := (hm k2 v2).mpr ⟨vs2, List.mem_cons_self _ _, hv2⟩
          rcases List.mem_cons.mp hu with heq2 | hmem2
          · exact (congrArg Prod.fst heq2).symm
          · have ha := hk2 (k1, ws) hmem
            have hb := hk1 (k2, us) hmem2
            have hc := strLtB_trans k1 k2 k1 hb ha
            rw [strLtB_irrefl] at hc
            cases hc
      subst hk12
      have huniq1 : ∀ ws, (k1, ws) ∈ es1 → False := by
        intro ws hw
        have := hk1 (k1, ws) hw
        rw [strLtB_irrefl] at this
        cases this
      have huniq2 : ∀ ws, (k1, ws) ∈ es2 → False := by
        intro ws hw
        have := hk2 (k1, ws) hw
        rw [strLtB_irrefl] at this
        cases this
      have hvs : vs1 = vs2 := by
        apply sortedStrs_ext vs1 vs2 hsv1 hsv2
        intro z
        constructor
        · intro hz
          obtain ⟨ws, hw, hzw⟩ := (hm k1 z).mp ⟨vs1, List.mem_cons_self _ _, hz⟩
          rcases List.mem_cons.mp hw with heq | hmem
          · injection heq with _ h2'
            rw [← h2']
            exact hzw
          · exact (huniq2 ws hmem).elim
        · intro hz
          obtain ⟨ws, hw, hzw⟩ := (hm k1 z).mpr ⟨vs2, List.mem_cons_self _ _, hz⟩
          rcases List.mem_cons.mp hw with heq | hmem
          · injection heq with _ h2'
            rw [← h2']
            exact hzw
          · exact (huniq1 ws hmem).elim
      subst hvs
      have htails : ∀ k v, groupMem k v es1 ↔ groupMem k v es2 := by
        intro k v
        constructor
        · rintro ⟨ws, hw, hv⟩
          have hkk : strLtB k1 k = true := hk1 (k, ws) hw
          obtain ⟨us, hu, hvu⟩ := (hm k v).mp ⟨ws, List.mem_cons_of_mem _ hw, hv⟩
          rcases List.mem_cons.mp hu with heq | hmem
          · have hke : k = k1 := congrArg Prod.fst heq
            rw [hke, strLtB_irrefl] at hkk
            cases hkk
          · exact ⟨us, hmem, hvu⟩
        · rintro ⟨ws, hw, hv⟩
          have hkk : strLtB k1 k = true := hk2 (k, ws) hw
          obtain ⟨us, hu, hvu⟩ := (hm k v).mpr ⟨ws, List.mem_cons_of_mem _ hw, hv⟩
          rcases List.mem_cons.mp hu with heq | hmem
          · have hke : k = k1 := congrArg Prod.fst heq
            rw [hke, strLtB_irrefl] at hkk
            cases hkk
          · exact ⟨us, hmem, hvu⟩
      have he1 : GroupWF es1 := ⟨hkeys1, fun e he => h1.2 e (List.mem_cons_of_mem _ he)⟩
      have he2 : GroupWF es2 := ⟨hkeys2, fun e he => h2.2 e (List.mem_cons_of_mem _ he)⟩
      rw [ih es2 he1 he2 htails]

/-- A successful `processPath` step inserts exactly `(splitKey, splitRem)`
and or-s the bare flag in. -/
theorem processPath_ok_eq (st : GroupState) (p : String) (st2 : GroupState)
    (h : processPath st p = .ok st2) :
    st2 = ⟨insertGroup (splitKey p) (splitRem p) st.patterns, st.flag || isBareTok p⟩ := by
  cases hb : isBareTok p with
  | true =>
    have hs : splitSlashOnce (stripSlash p) = none := by
      unfold isBareTok at hb
      exact Option.isNone_iff_eq_none.mp hb
    rw [processPath_bare st p hb] at h
    by_cases hcond : st.patterns ≠ [] ∧ st.flag = false
    · rw [if_pos hcond] at h; cases h
    · rw [if_neg hcond] at h
      injection h with h2
      rw [← h2]
      simp [splitKey, splitRem, hs]
  | false =>
    obtain ⟨a, b, hs, hp⟩ := processPath_multi st p hb
    rw [hp] at h
    injection h with h2
    rw [← h2]
    simp [splitKey, splitRem, hs]

/-- The grouping loop preserves well-formedness. -/
theorem groupFold_wf : ∀ (paths : List String) (st0 st : GroupState),
    GroupWF st0.patterns → List.foldlM processPath st0 paths = .ok st →
    GroupWF st.patterns := by
  intro paths
  induction paths with
  | nil =>
    intro st0 st h0 h
    rw [groupFold_nil] at h
    injection h with h2
    rw [← h2]
    exact h0
  | cons p rest ih =>
    intro st0 st h0 h
    cases hp : processPath st0 p with
    | error e =>
      rw [groupFold_cons_err _ _ _ _ hp] at h
      cases h
    | ok st1 =>
      rw [groupFold_cons _ _ _ _ hp] at h
      refine ih st1 st ?_ h
      rw [processPath_ok_eq st0 p st1 hp]
      exact groupWF_insertGroup _ _ _ h0

theorem groupPaths_wf (paths : List String) (st : GroupState)
    (h : groupPaths paths = .ok st) : GroupWF st.patterns :=
  groupFold_wf paths ⟨[], false⟩ st ⟨List.Pairwise.nil, fun _ he => absurd he (List.not_mem_nil _)⟩ h

/-- Membership in the grouping loop's result. -/
theorem groupFold_mem : ∀ (paths : List String) (st0 st : GroupState),
    List.foldlM processPath st0 paths = .ok st →
    ∀ k v, groupMem k v st.patterns ↔
      groupMem k v st0.patterns ∨ ∃ p ∈ paths, splitKey p = k ∧ splitRem p = v := by
  intro paths
  induction paths with
  | nil =>
    intro st0 st h k v
    rw [groupFold_nil] at h
    injection h with h2
    rw [← h2]
    simp
  | cons p rest ih =>
    intro st0 st h k v
    cases hp : processPath st0 p with
    | error e =>
      rw [groupFold_cons_err _ _ _ _ hp] at h
      cases h
    | ok st1 =>
      rw [groupFold_cons _ _ _ _ hp] at h
      rw [ih st1 st h k v, processPath_ok_eq st0 p st1 hp]
      show groupMem k v (insertGroup (splitKey p) (splitRem p) st0.patterns) ∨ _ ↔ _
      rw [groupMem_insertGroup]
      constructor
      · rintro ((⟨hk', hv'⟩ | h0) | ⟨q, hq, hkv⟩)
        · exact Or.inr ⟨p, List.mem_cons_self _ _, hk'.symm, hv'.symm⟩
        · exact Or.inl h0
        · exact Or.inr ⟨q, List.mem_cons_of_mem _ hq, hkv⟩
      · rintro (h0 | ⟨q, hq, hkv⟩)
        · exact Or.inl (Or.inr h0)
        · rcases List.mem_cons.mp hq with rfl | hq2
          · exact Or.inl (Or.inl ⟨hkv.1.symm, hkv.2.symm⟩)
          · exact Or.inr ⟨q, hq2, hkv⟩

theorem groupPaths_mem (paths : List String) (st : GroupState)
    (h : groupPaths paths = .ok st) (k v : String) :
    groupMem k v st.patterns ↔ ∃ p ∈ paths, splitKey p = k ∧ splitRem p = v := by
  rw [groupFold_mem paths ⟨[], false⟩ st h k v]
  have hempty : ¬ groupMem k v (⟨[], false⟩ : GroupState).patterns := by
    rintro ⟨vs, hvs, _⟩
    exact absurd hvs (List.not_mem_nil _)
  tauto

/-- The flag after the grouping loop records whether a bare token was seen. -/
theorem groupFold_flag : ∀ (paths : List String) (st0 st : GroupState),
    List.foldlM processPath st0 paths = .ok st →
    (st.flag = true ↔ st0.flag = true ∨ ∃ p ∈ paths, isBareTok p = true) := by
  intro paths
  induction paths with
  | nil =>
    intro st0 st h
    rw [groupFold_nil] at h
    injection h with h2
    rw [← h2]
    simp
  | cons p rest ih =>
    intro st0 st h
    cases hp : processPath st0 p with
    | error e =>
      rw [groupFold_cons_err _ _ _ _ hp] at h
      cases h
    | ok st1 =>
      rw [groupFold_cons _ _ _ _ hp] at h
      rw [ih st1 st h, processPath_ok_eq st0 p st1 hp]
      show (st0.flag || isBareTok p) = true ∨ _ ↔ _
      rw [Bool.or_eq_true]
      constructor
      · rintro ((hf | hb) | ⟨q, hq, hbq⟩)
        · exact Or.inl hf
        · exact Or.inr ⟨p, List.mem_cons_self _ _, hb⟩
        · exact Or.inr ⟨q, List.mem_cons_of_mem _ hq, hbq⟩
      · rintro (hf | ⟨q, hq, hbq⟩)
        · exact Or.inl (Or.inl hf)
        · rcases List.mem_cons.mp hq with rfl | hq2
          · exact Or.inl (Or.inr hbq)
          · exact Or.inr ⟨q, hq2, hbq⟩

theorem bool_ext {a b : Bool} (h : a = true ↔ b = true) : a = b := by
  cases a <;> cases b <;> simp_all

/-- Two path lists with the same member set yield the same `GroupState`
whenever both grouping loops succeed. -/
theorem groupPaths_state_ext (l l2 : List String) (st st2 : GroupState)
    (hm : ∀ x, x ∈ l ↔ x ∈ l2)
    (hg : groupPaths l = .ok st) (hg2 : groupPaths l2 = .ok st2) : st = st2 := by
  have hpat : st.patterns = st2.patterns := by
    apply groups_ext _ _ (groupPaths_wf l st hg) (groupPaths_wf l2 st2 hg2)
    intro k v
    rw [groupPaths_mem l st hg k v, groupPaths_mem l2 st2 hg2 k v]
    constructor
    · rintro ⟨p, hp, hkv⟩; exact ⟨p, (hm p).mp hp, hkv⟩
    · rintro ⟨p, hp, hkv⟩; exact ⟨p, (hm p).mpr hp, hkv⟩
  have hflag : st.flag = st2.flag := by
    apply bool_ext
    rw [groupFold_flag l ⟨[], false⟩ st hg, groupFold_flag l2 ⟨[], false⟩ st2 hg2]
    constructor
    · rintro (hf | ⟨p, hp, hb⟩)
      · cases hf
      · exact Or.inr ⟨p, (hm p).mp hp, hb⟩
    · rintro (hf | ⟨p, hp, hb⟩)
      · cases hf
      · exact Or.inr ⟨p, (hm p).mpr hp, hb⟩
  cases st
  cases st2
  simp only at hpat hflag
  rw [hpat, hflag]

theorem le_maxLenS_of_mem (p : String) : ∀ l : List String, p ∈ l → p.length ≤ maxLenS l := by
  intro l
  induction l with
  | nil => intro h; cases h
  | cons x xs ih =>
    intro h
    rcases List.mem_cons.mp h with rfl | h2
    · exact le_max_left _ _
    · exact le_trans (ih h2) (le_max_right _ _)

theorem maxLenS_le (B : Nat) : ∀ l : List String, (∀ p ∈ l, p.length ≤ B) → maxLenS l ≤ B := by
  intro l
  induction l with
  | nil => intro _; exact Nat.zero_le B
  | cons x xs ih =>
    intro h
    exact max_le (h x (List.mem_cons_self _ _)) (ih fun p hp => h p (List.mem_cons_of_mem _ hp))

theorem maxLenS_congr (l l2 : List String) (hm : ∀ x, x ∈ l ↔ x ∈ l2) :
    maxLenS l = maxLenS l2 := by
  apply le_antisymm
  · exact maxLenS_le _ l fun p hp => le_maxLenS_of_mem p l2 ((hm p).mp hp)
  · exact maxLenS_le _ l2 fun p hp => le_maxLenS_of_mem p l ((hm p).mpr hp)

/-- When the output loop succeeds with a string in non-main mode, neither
the `orig` fallback list nor the `main` mode can change the result: the
fallback branch was never taken. -/
theorem goF_false_some (recur : List String → Except PyErr (Option String))
    (orig orig2 : List String) (flag main2 : Bool) :
    ∀ (groups : List (String × List String)) (acc : List String) (s : String),
      goF recur orig flag false groups acc = .ok (some s) →
      goF recur orig2 flag main2 groups acc = .ok (some s) := by
  intro groups
  induction groups with
  | nil => intro acc s h; exact h
  | cons hd rest ih =>
    obtain ⟨pre, lst⟩ := hd
    intro acc s h
    match lst with
    | [] =>
      simp only [goF] at h ⊢
      exact ih _ _ h
    | [x] =>
      simp only [goF] at h ⊢
      exact ih _ _ h
    | x :: y :: l =>
      by_cases hpre : pre = ""
      · simp only [goF, if_neg (not_not_intro hpre)] at h ⊢
        cases hmap : mapPyInt (x :: y :: l) with
        | none => simp [hmap] at h
        | some ints =>
          simp only [hmap] at h ⊢
          cases hsl : List.insertionSort (fun a b => a ≤ b) ints with
          | nil => simp [hsl] at h
          | cons s0 tl =>
            simp only [hsl] at h ⊢
            by_cases hlen : (s0 :: tl).length = 1
            · rw [if_pos hlen] at h ⊢
              exact ih _ _ h
            · rw [if_neg hlen] at h ⊢
              by_cases hrng : s0 :: tl = intRange s0 ((s0 :: tl).getLastD 0 + 1)
              · rw [if_pos hrng] at h ⊢
                exact ih _ _ h
              · rw [if_neg hrng] at h ⊢
                simp at h
      · simp only [goF, if_pos hpre] at h ⊢
        cases hrec : recur (x :: y :: l) with
        | error e => simp [hrec] at h
        | ok osub =>
          cases osub with
          | none => simp [hrec] at h
          | some sub =>
            simp only [hrec] at h ⊢
            exact ih _ _ h

/-- C7 counterexample: the two-element lists `["Dev1/ao1", "Dev1/ao3"]` and
`["Dev1/ao3", "Dev1/ao1"]` are permutations of each other, but the
non-contiguous suffixes trigger the `','.join(paths)` fallback, which
reproduces the input order: the two calls return different strings. -/
theorem claim_C7_cex :
    make_pattern ["Dev1/ao1", "Dev1/ao3"] true = .ok (some "Dev1/ao1,Dev1/ao3") ∧
    make_pattern ["Dev1/ao3", "Dev1/ao1"] true = .ok (some "Dev1/ao3,Dev1/ao1") ∧
    ("Dev1/ao1,Dev1/ao3" : String) ≠ "Dev1/ao3,Dev1/ao1" := by
  exact ⟨by decide, by decide, by decide⟩

/-- C7 amended: when neither grouping loop asserts and the compression
itself succeeds (the conservative comma-join fallback is not taken — it
echoes the input order, as the counterexample shows), the output is
independent of input order and of duplicated paths: any two input lists
with the same member set yield the same string, in main mode as well as in
recursive mode. -/
theorem claim_C7_amended (l l2 : List String) (s : String)
    (hm : ∀ x, x ∈ l ↔ x ∈ l2)
    (hg : ∃ st, groupPaths l = .ok st) (hg2 : ∃ st2, groupPaths l2 = .ok st2)
    (hs : make_pattern l false = .ok (some s)) :
    make_pattern l true = .ok (some s) ∧ make_pattern l2 false = .ok (some s) ∧
      make_pattern l2 true = .ok (some s) := by
  obtain ⟨st, hst⟩ := hg
  obtain ⟨st2, hst2⟩ := hg2
  have hstate : st = st2 := groupPaths_state_ext l l2 st st2 hm hst hst2
  have hmax : maxLenS l = maxLenS l2 := maxLenS_congr l l2 hm
  unfold make_pattern at hs ⊢
  rw [mpF] at hs
  simp only [hst] at hs
  refine ⟨?_, ?_, ?_⟩
  · rw [mpF]
    simp only [hst]
    exact goF_false_some _ l l st.flag true st.patterns [] s hs
  · rw [← hmax, mpF]
    simp only [hst2, ← hstate]
    exact goF_false_some _ l l2 st.flag false st.patterns [] s hs
  · rw [← hmax, mpF]
    simp only [hst2, ← hstate]
    exact goF_false_some _ l l2 st.flag true st.patterns [] s hs

/-- Witness for C7: a transposed and duplicated variant of a contiguous
two-path input produces the same compressed string. -/
theorem claim_C7_amended_witness :
    make_pattern ["Dev1/ao2", "Dev1/ao1"] true = .ok (some "Dev1/ao1:2") ∧
    make_pattern ["Dev1/ao1", "Dev1/ao2", "Dev1/ao1"] false = .ok (some "Dev1/ao1:2") ∧
    make_pattern ["Dev1/ao1", "Dev1/ao2", "Dev1/ao1"] true = .ok (some "Dev1/ao1:2") :=
  claim_C7_amended ["Dev1/ao2", "Dev1/ao1"] ["Dev1/ao1", "Dev1/ao2", "Dev1/ao1"]
    "Dev1/ao1:2"
    (by
      intro x
      simp only [List.mem_cons, List.not_mem_nil, or_false]
      tauto)
    ⟨_, rfl⟩ ⟨_, rfl⟩ (by decide)

/-- Witness for C5: the lookup-failed/table-hit branch at `envLookupFails`
and the lookup-succeeded branch at `envTableHit`, both for code `-1`. -/
theorem claim_C5_amended_witness :
    CHK envLookupFails (-1) "f" "()" = .error (.nidaqmxRuntimeError
      ("f" ++ "()" ++ " failed with error " ++ "SomeError" ++ "=" ++
        pyStrInt (-1) ++ ": " ++ pyRepr "garbage")) ∧
    CHK envTableHit (-1) "f" "()" = .error (.nidaqmxRuntimeError
      ("f" ++ "()" ++ ":" ++ wrapText envTableHit "boom")) :=
  ⟨(claim_C5_amended envLookupFails "f" "()" (-1) 7 "garbage" (by decide) rfl).1
      (by decide) "SomeError" rfl,
   (claim_C5_amended envTableHit "f" "()" (-1) 0 "boom" (by decide) rfl).2.2 rfl⟩

/-! ## Claim C2: contiguous runs compress to a range

The lemmas below culminate in `claim_C2`: for an arbitrary slash-free
device prefix `D`, a slash-, digit- and comma-free channel stem `W`, and a
contiguous run of at least two numeric suffixes `a .. a+n-1`, the
compressor emits `D/Wa:b`. -/

theorem takeWhile_all_append {α : Type} (P : α → Bool) :
    ∀ (l1 l2 : List α), (∀ x ∈ l1, P x = true) →
      (l1 ++ l2).takeWhile P = l1 ++ l2.takeWhile P := by
  intro l1
  induction l1 with
  | nil => intro l2 _; rfl
  | cons x xs ih =>
    intro l2 h
    rw [List.cons_append, List.takeWhile_cons, if_pos (h x (List.mem_cons_self _ _)),
      ih l2 (fun y hy => h y (List.mem_cons_of_mem _ hy)), List.cons_append]

theorem dropWhile_all_append {α : Type} (P : α → Bool) :
    ∀ (l1 l2 : List α), (∀ x ∈ l1, P x = true) →
      (l1 ++ l2).dropWhile P = l2.dropWhile P := by
  intro l1
  induction l1 with
  | nil => intro l2 _; rfl
  | cons x xs ih =>
    intro l2 h
    rw [List.cons_append, List.dropWhile_cons, if_pos (h x (List.mem_cons_self _ _)),
      ih l2 (fun y hy => h y (List.mem_cons_of_mem _ hy))]

theorem dropWhile_eq_nil_of_all {α : Type} (P : α → Bool) :
    ∀ l : List α, (∀ x ∈ l, P x = true) → l.dropWhile P = [] := by
  intro l
  induction l with
  | nil => intro _; rfl
  | cons x xs ih =>
    intro h
    rw [List.dropWhile_cons, if_pos (h x (List.mem_cons_self _ _)),
      ih (fun y hy => h y (List.mem_cons_of_mem _ hy))]

theorem toList_ne_nil_of_ne (s : String) (h : s ≠ "") : s.toList ≠ [] := by
  intro hl
  exact h (by rw [← mk_toList s, hl])

theorem toList_append (s t : String) : (s ++ t).toList = s.toList ++ t.toList := rfl

theorem length_pos_of_ne (s : String) (h : s ≠ "") : 1 ≤ s.length := by
  have hne := toList_ne_nil_of_ne s h
  cases hl : s.toList with
  | nil => exact absurd hl hne
  | cons c cs =>
    show 1 ≤ s.toList.length
    rw [hl]
    simp

theorem stripSlash_of_head_ne (s : String) (c : Char) (cs : List Char)
    (hl : s.toList = c :: cs) (hc : c ≠ '/') : stripSlash s = s := by
  unfold stripSlash
  simp only [hl]
  rw [if_neg hc]

/-- Splitting `D ++ "/" ++ R` at the first slash returns `(D, R)` when `D`
holds no slash. -/
theorem splitSlashOnce_concat (D R : String) (hD : ∀ c ∈ D.toList, c ≠ '/') :
    splitSlashOnce (D ++ "/" ++ R) = some (D, R) := by
  have hDall : ∀ c ∈ D.toList, (fun c => c ≠ '/' : Char → Bool) c = true := by
    intro c hc
    simpa using hD c hc
  have hlist : (D ++ "/" ++ R).toList = D.toList ++ ('/' :: R.toList) := by
    rw [toList_append, toList_append, List.append_assoc]
    rfl
  have h1 : (D ++ "/" ++ R).toList.dropWhile (fun c => c ≠ '/') = '/' :: R.toList := by
    rw [hlist, dropWhile_all_append _ _ _ hDall, List.dropWhile_cons, if_neg (by simp)]
  have h2 : (D ++ "/" ++ R).toList.takeWhile (fun c => c ≠ '/') = D.toList := by
    rw [hlist, takeWhile_all_append _ _ _ hDall, List.takeWhile_cons, if_neg (by simp),
      List.append_nil]
  unfold splitSlashOnce
  simp only [h1]
  rw [h2, mk_toList, mk_toList]

/-- A string with no slash does not split. -/
theorem splitSlashOnce_none_of_noSlash (s : String) (h : ∀ c ∈ s.toList, c ≠ '/') :
    splitSlashOnce s = none := by
  unfold splitSlashOnce
  rw [dropWhile_eq_nil_of_all _ _ (fun c hc => by simpa using h c hc)]

/-- Cutting `W ++ Ds` at the first digit returns `(W, Ds)` when `W` holds
no digit and `Ds` opens with one. -/
theorem digitSplit_concat (W Ds : String) (hW : ∀ c ∈ W.toList, c.isDigit = false)
    (c : Char) (cs : List Char) (hDs : Ds.toList = c :: cs) (hc : c.isDigit = true) :
    digitSplit (W ++ Ds) = (W, Ds) := by
  have hWall : ∀ x ∈ W.toList, (fun c => ¬ c.isDigit : Char → Bool) x = true := by
    intro x hx
    simp [hW x hx]
  have h1 : (W ++ Ds).toList.takeWhile (fun c => ¬ c.isDigit) = W.toList := by
    rw [toList_append, takeWhile_all_append _ _ _ hWall, hDs, List.takeWhile_cons,
      if_neg (by simp [hc]), List.append_nil]
  have h2 : (W ++ Ds).toList.dropWhile (fun c => ¬ c.isDigit) = Ds.toList := by
    rw [toList_append, dropWhile_all_append _ _ _ hWall, hDs, List.dropWhile_cons,
      if_neg (by simp [hc]), ← hDs]
  unfold digitSplit
  rw [h1, h2, mk_toList, mk_toList]

theorem natToRevDigits_lt : ∀ (fuel n : Nat), ∀ d ∈ natToRevDigits fuel n, d < 10 := by
  intro fuel
  induction fuel with
  | zero => intro n d hd; simp [natToRevDigits] at hd
  | succ f ih =>
    intro n d hd
    rw [natToRevDigits] at hd
    by_cases hn : n = 0
    · rw [if_pos hn] at hd; simp at hd
    · rw [if_neg hn] at hd
      rcases List.mem_cons.mp hd with rfl | hd2
      · exact Nat.mod_lt n (by norm_num)
      · exact ih (n / 10) d hd2

theorem natToRevDigits_val : ∀ (fuel n : Nat), n ≤ fuel →
    (natToRevDigits fuel n).foldr (fun d acc => 10 * acc + d) 0 = n := by
  intro fuel
  induction fuel with
  | zero => intro n h; interval_cases n; rfl
  | succ f ih =>
    intro n h
    rw [natToRevDigits]
    by_cases hn : n = 0
    · rw [if_pos hn, hn]; rfl
    · rw [if_neg hn]
      show 10 * ((natToRevDigits f (n / 10)).foldr (fun d acc => 10 * acc + d) 0) + n % 10 = n
      rw [ih (n / 10) (by omega)]
      omega

theorem natToRevDigits_ne_nil (f : Nat) (n : Nat) (hn : n ≠ 0) :
    natToRevDigits (f + 1) n ≠ [] := by
  rw [natToRevDigits, if_neg hn]
  simp

theorem digitVal_ofNat (d : Nat) (h : d < 10) : digitVal (Char.ofNat (48 + d)) = d := by
  interval_cases d <;> decide

theorem isDigit_ofNat (d : Nat) (h : d < 10) : (Char.ofNat (48 + d)).isDigit = true := by
  interval_cases d <;> decide

theorem foldl_digitVal : ∀ (ds : List Nat) (a : Nat), (∀ d ∈ ds, d < 10) →
    List.foldl (fun n c => 10 * n + digitVal c) a (ds.map (fun d => Char.ofNat (48 + d)))
      = List.foldl (fun n d => 10 * n + d) a ds := by
  intro ds
  induction ds with
  | nil => intro a _; rfl
  | cons d ds2 ih =>
    intro a h
    rw [List.map_cons, List.foldl_cons, List.foldl_cons,
      digitVal_ofNat d (h d (List.mem_cons_self _ _))]
    exact ih _ (fun x hx => h x (List.mem_cons_of_mem _ hx))

theorem pyInt_mk_digits (ds : List Nat) (hne : ds ≠ []) (hlt : ∀ d ∈ ds, d < 10) :
    pyInt (String.mk (ds.map (fun d => Char.ofNat (48 + d))))
      = some ((ds.foldl (fun a d => 10 * a + d) 0 : Nat) : Int) := by
  cases ds with
  | nil => exact absurd rfl hne
  | cons d0 ds2 =>
    have hd0 : d0 < 10 := hlt d0 (List.mem_cons_self _ _)
    have hparse : parseDigits (Char.ofNat (48 + d0) :: ds2.map (fun d => Char.ofNat (48 + d)))
        = some ((d0 :: ds2).foldl (fun a d => 10 * a + d) 0) := by
      unfold parseDigits
      rw [if_pos]
      · rw [show Char.ofNat (48 + d0) :: ds2.map (fun d => Char.ofNat (48 + d))
            = (d0 :: ds2).map (fun d => Char.ofNat (48 + d)) from rfl]
        rw [foldl_digitVal _ _ hlt]
      · constructor
        · simp
        · rw [show Char.ofNat (48 + d0) :: ds2.map (fun d => Char.ofNat (48 + d))
              = (d0 :: ds2).map (fun d => Char.ofNat (48 + d)) from rfl]
          rw [List.all_eq_true]
          intro c hc
          obtain ⟨d, hd, rfl⟩ := List.mem_map.mp hc
          exact isDigit_ofNat d (hlt d hd)
    unfold pyInt
    rw [show (String.mk ((d0 :: ds2).map (fun d => Char.ofNat (48 + d)))).toList
        = Char.ofNat (48 + d0) :: ds2.map (fun d => Char.ofNat (48 + d)) from rfl]
    split
    · rename_i heq
      injection heq with hchar _
      exfalso
      interval_cases d0 <;> exact absurd hchar (by decide)
    · rename_i heq
      injection heq with hchar _
      exfalso
      interval_cases d0 <;> exact absurd hchar (by decide)
    · rw [hparse]
      rfl

/-- Python prints a positive integer as its reversed digit list, most
significant first; parsing it back recovers the integer. -/
theorem pyInt_pyStrNat (n : Nat) : pyInt (pyStrNat n) = some (n : Int) := by
  by_cases hn : n = 0
  · subst hn; decide
  · unfold pyStrNat
    rw [if_neg hn]
    obtain ⟨f, rfl⟩ : ∃ f, n = f + 1 := ⟨n - 1, by omega⟩
    rw [pyInt_mk_digits _ ?hne ?hlt]
    case hne =>
      intro hrev
      exact natToRevDigits_ne_nil f (f + 1) hn (by simpa using hrev)
    case hlt =>
      intro d hd
      exact natToRevDigits_lt _ _ d (List.mem_reverse.mp hd)
    rw [List.foldl_reverse, natToRevDigits_val (f + 1) (f + 1) le_rfl]

theorem pyStrNat_inj (m n : Nat) (h : pyStrNat m = pyStrNat n) : m = n := by
  have hm := pyInt_pyStrNat m
  rw [h, pyInt_pyStrNat n] at hm
  injection hm with h2
  exact_mod_cast h2.symm

theorem pyStrNat_head_digit (n : Nat) :
    ∃ c cs, (pyStrNat n).toList = c :: cs ∧ c.isDigit = true := by
  by_cases hn : n = 0
  · subst hn; exact ⟨'0', [], rfl, by decide⟩
  · unfold pyStrNat
    rw [if_neg hn]
    obtain ⟨f, rfl⟩ : ∃ f, n = f + 1 := ⟨n - 1, by omega⟩
    cases hrev : (natToRevDigits (f + 1) (f + 1)).reverse with
    | nil =>
      exfalso
      exact natToRevDigits_ne_nil f (f + 1) hn (by simpa using hrev)
    | cons d ds =>
      refine ⟨Char.ofNat (48 + d), ds.map (fun d => Char.ofNat (48 + d)), rfl, ?_⟩
      refine isDigit_ofNat d (natToRevDigits_lt (f + 1) (f + 1) d ?_)
      rw [← List.mem_reverse, hrev]
      exact List.mem_cons_self _ _

theorem pyStrNat_all_digit (n : Nat) : ∀ c ∈ (pyStrNat n).toList, c.isDigit = true := by
  intro c hc
  by_cases hn : n = 0
  · subst hn
    rcases List.mem_singleton.mp hc with rfl
    decide
  · unfold pyStrNat at hc
    rw [if_neg hn] at hc
    obtain ⟨d, hd, rfl⟩ := List.mem_map.mp hc
    exact isDigit_ofNat d (natToRevDigits_lt _ _ d (List.mem_reverse.mp hd))

theorem pyStrNat_ne_empty (n : Nat) : pyStrNat n ≠ "" := by
  intro h
  obtain ⟨c, cs, hl, _⟩ := pyStrNat_head_digit n
  rw [h] at hl
  cases hl

theorem digit_char_ne (c : Char) (h : c.isDigit = true) :
    c ≠ '/' ∧ c ≠ ',' ∧ c ≠ ':' := by
  refine ⟨?_, ?_, ?_⟩ <;> (intro heq; rw [heq] at h; exact absurd h (by decide))

theorem pyStrInt_ofNat (n : Nat) : pyStrInt (n : Int) = pyStrNat n := by
  unfold pyStrInt
  rw [if_neg (by omega)]
  norm_cast

theorem str_append_assoc (s t u : String) : (s ++ t) ++ u = s ++ (t ++ u) := by
  show String.mk ((s.toList ++ t.toList) ++ u.toList)
    = String.mk (s.toList ++ (t.toList ++ u.toList))
  rw [List.append_assoc]

theorem str_append_left_cancel (s t u : String) (h : s ++ t = s ++ u) : t = u := by
  have h2 : s.toList ++ t.toList = s.toList ++ u.toList := by
    rw [← toList_append, ← toList_append, h]
  have h3 := List.append_cancel_left h2
  rw [← mk_toList t, ← mk_toList u, h3]

theorem contains_eq_false_of_all (l : List Char) (c : Char) (h : ∀ x ∈ l, x ≠ c) :
    l.contains c = false := by
  induction l with
  | nil => rfl
  | cons x xs ih =>
    simp only [List.contains_cons]
    rw [ih (fun y hy => h y (List.mem_cons_of_mem _ hy))]
    have hx := h x (List.mem_cons_self _ _)
    simp [beq_iff_eq]
    exact fun hh => (hx hh.symm).elim

/-- Cutting a string that opens with a digit at the first digit yields an
empty word part and the whole string as the numeric part. -/
theorem digitSplit_head_digit (x : String) (c : Char) (cs : List Char)
    (hl : x.toList = c :: cs) (hc : c.isDigit = true) : digitSplit x = ("", x) := by
  unfold digitSplit
  rw [hl, List.takeWhile_cons, List.dropWhile_cons, if_neg (by simp [hc]),
    if_neg (by simp [hc]), ← hl, mk_toList]

/-- A non-empty slash-free string is a bare token: the grouping loop files
it under its digit-split word part. -/
theorem bare_parts (x : String) (hslash : ∀ c ∈ x.toList, c ≠ '/') (hne : x ≠ "") :
    stripSlash x = x ∧ splitSlashOnce x = none ∧ isBareTok x = true ∧
    splitKey x = (digitSplit x).1 ∧ splitRem x = (digitSplit x).2 := by
  have hnone : splitSlashOnce x = none := splitSlashOnce_none_of_noSlash x hslash
  have hss : stripSlash x = x := by
    cases hl : x.toList with
    | nil =>
      have hx : x = "" := by rw [← mk_toList x, hl]
      exact absurd hx hne
    | cons c cs =>
      exact stripSlash_of_head_ne x c cs hl (hslash c (by rw [hl]; exact List.mem_cons_self _ _))
  refine ⟨hss, hnone, ?_, ?_, ?_⟩
  · unfold isBareTok
    rw [hss, hnone]
    rfl
  · unfold splitKey
    simp only [hss, hnone]
  · unfold splitRem
    simp only [hss, hnone]

/-- A path of the form `D ++ "/" ++ R` with `D` non-empty and slash-free is
multi-segment: the grouping loop files `R` under `D`. -/
theorem multi_parts (D R : String) (hD : D ≠ "") (hDs : ∀ c ∈ D.toList, c ≠ '/') :
    stripSlash (D ++ "/" ++ R) = D ++ "/" ++ R ∧
    splitSlashOnce (D ++ "/" ++ R) = some (D, R) ∧
    isBareTok (D ++ "/" ++ R) = false ∧
    splitKey (D ++ "/" ++ R) = D ∧ splitRem (D ++ "/" ++ R) = R := by
  have hsplit := splitSlashOnce_concat D R hDs
  have hss : stripSlash (D ++ "/" ++ R) = D ++ "/" ++ R := by
    cases hl : D.toList with
    | nil =>
      have hx : D = "" := by rw [← mk_toList D, hl]
      exact absurd hx hD
    | cons c cs =>
      apply stripSlash_of_head_ne _ c (cs ++ '/' :: R.toList)
      · show (D.toList ++ ("/" : String).toList) ++ R.toList = _
        rw [hl]
        simp
      · exact hDs c (by rw [hl]; exact List.mem_cons_self _ _)
  refine ⟨hss, hsplit, ?_, ?_, ?_⟩
  · unfold isBareTok
    rw [hss, hsplit]
    rfl
  · unfold splitKey
    simp only [hss, hsplit]
  · unfold splitRem
    simp only [hss, hsplit]

/-- The grouping loop succeeds on a list free of bare tokens and leaves the
flag unchanged. -/
theorem groupFold_ok_of_no_bare : ∀ (paths : List String) (st0 : GroupState),
    (∀ p ∈ paths, isBareTok p = false) →
    ∃ st, List.foldlM processPath st0 paths = .ok st ∧ st.flag = st0.flag := by
  intro paths
  induction paths with
  | nil => intro st0 _; exact ⟨st0, groupFold_nil st0, rfl⟩
  | cons p rest ih =>
    intro st0 h
    obtain ⟨a, b, _, hp⟩ := processPath_multi st0 p (h p (List.mem_cons_self _ _))
    obtain ⟨st, hst, hflag⟩ := ih ⟨insertGroup a b st0.patterns, st0.flag⟩
      (fun q hq => h q (List.mem_cons_of_mem _ hq))
    exact ⟨st, by rw [groupFold_cons _ _ _ _ hp]; exact hst, hflag⟩

/-- The grouping loop succeeds whenever the first token is bare, and the
bare flag ends up set. -/
theorem groupPaths_ok_first_bare (p : String) (rest : List String)
    (hb : isBareTok p = true) :
    ∃ st, groupPaths (p :: rest) = .ok st ∧ st.flag = true := by
  have hp : processPath ⟨[], false⟩ p
      = .ok ⟨insertGroup (digitSplit (stripSlash p)).1
          (digitSplit (stripSlash p)).2 [], true⟩ := by
    rw [processPath_bare _ p hb, if_neg (by simp)]
  obtain ⟨st2, h2⟩ := groupFold_flag_true rest
    ⟨insertGroup (digitSplit (stripSlash p)).1 (digitSplit (stripSlash p)).2 [], true⟩ rfl
  have hfold : groupPaths (p :: rest) = .ok st2 := by
    unfold groupPaths
    rw [groupFold_cons _ _ _ _ hp]
    exact h2
  have hfl : st2.flag = true :=
    (groupFold_flag (p :: rest) ⟨[], false⟩ st2 hfold).mpr
      (Or.inr ⟨p, List.mem_cons_self _ _, hb⟩)
  exact ⟨st2, hfold, hfl⟩

/-- When every path files under the same key `K`, the grouping loop builds a
single-entry dict holding the sorted set of all remainders. -/
theorem groupPaths_uniform (paths : List String) (K : String) (st : GroupState)
    (p0 : String) (hp0 : p0 ∈ paths)
    (hK : ∀ p ∈ paths, splitKey p = K)
    (h : groupPaths paths = .ok st) :
    ∃ V, st.patterns = [(K, V)] ∧ SortedStrs V ∧
      ∀ v, (v ∈ V ↔ ∃ p ∈ paths, splitRem p = v) := by
  have hwf := groupPaths_wf paths st h
  have hmemiff := groupPaths_mem paths st h
  obtain ⟨vs0, hvs0, hv0⟩ := (hmemiff K (splitRem p0)).mpr ⟨p0, hp0, hK p0 hp0, rfl⟩
  have hkeys : ∀ e ∈ st.patterns, e.1 = K := by
    intro e he
    obtain ⟨hesort, hene⟩ := hwf.2 e he
    cases hv : e.2 with
    | nil => exact absurd hv hene
    | cons v vt =>
      have hgm : groupMem e.1 v st.patterns :=
        ⟨e.2, he, by rw [hv]; exact List.mem_cons_self _ _⟩
      obtain ⟨p, hp, hkp, _⟩ := (hmemiff e.1 v).mp hgm
      rw [← hkp]
      exact hK p hp
  cases hpat : st.patterns with
  | nil =>
    rw [hpat] at hvs0
    exact absurd hvs0 (List.not_mem_nil _)
  | cons e rest =>
    cases rest with
    | cons e2 rest2 =>
      exfalso
      have hpw := hwf.1
      rw [hpat] at hpw
      have h12 := (List.pairwise_cons.mp hpw).1 e2 (List.mem_cons_self _ _)
      have hk1 : e.1 = K := hkeys e (by rw [hpat]; exact List.mem_cons_self _ _)
      have hk2 : e2.1 = K :=
        hkeys e2 (by rw [hpat]; exact List.mem_cons_of_mem _ (List.mem_cons_self _ _))
      rw [hk1, hk2, strLtB_irrefl] at h12
      cases h12
    | nil =>
      have hk1 : e.1 = K := hkeys e (by rw [hpat]; exact List.mem_cons_self _ _)
      have heK : e = (K, e.2) := by
        rw [← hk1]
      refine ⟨e.2, by rw [← heK], (hwf.2 e (by rw [hpat]; exact List.mem_cons_self _ _)).1, ?_⟩
      intro v
      constructor
      · intro hv
        have hgm : groupMem K v st.patterns :=
          ⟨e.2, by rw [hpat, ← heK]; exact List.mem_cons_self _ _, hv⟩
        obtain ⟨p, hp, _, hrem⟩ := (hmemiff K v).mp hgm
        exact ⟨p, hp, hrem⟩
      · rintro ⟨p, hp, hrem⟩
        obtain ⟨vs, hvs, hvv⟩ := (hmemiff K v).mpr ⟨p, hp, hK p hp, hrem⟩
        rw [hpat] at hvs
        have heq : (K, vs) = e := List.mem_singleton.mp hvs
        have hvse : vs = e.2 := congrArg Prod.snd heq
        rw [← hvse]
        exact hvv

/-- `[int(i) for i in lst]` when every element parses. -/
theorem mapPyInt_eq_map (g : String → Int) : ∀ (l : List String),
    (∀ s ∈ l, pyInt s = some (g s)) → mapPyInt l = some (l.map g) := by
  intro l
  induction l with
  | nil => intro _; rfl
  | cons s rest ih =>
    intro h
    simp only [mapPyInt]
    rw [h s (List.mem_cons_self _ _), ih (fun q hq => h q (List.mem_cons_of_mem _ hq))]
    rfl

theorem two_mem_shape {α : Type} (l : List α) (x y : α) (hx : x ∈ l) (hy : y ∈ l)
    (hne : x ≠ y) : ∃ u v t, l = u :: v :: t := by
  cases l with
  | nil => exact absurd hx (List.not_mem_nil _)
  | cons u t =>
    cases t with
    | nil =>
      rcases List.mem_singleton.mp hx with rfl
      rcases List.mem_singleton.mp hy with rfl
      exact absurd rfl hne
    | cons v t2 => exact ⟨u, v, t2, rfl⟩

theorem getLastD_append_single {α : Type} : ∀ (l : List α) (x d : α),
    (l ++ [x]).getLastD d = x := by
  intro l
  induction l with
  | nil => intro x d; rfl
  | cons a l2 ih =>
    intro x d
    rw [List.cons_append, List.getLastD_cons]
    exact ih x a

/-- `range(a, a+n)` over `Int` is the cast image of `List.range n`. -/
theorem intRange_cast (a n : Nat) :
    intRange (a : Int) ((a + n : Nat) : Int)
      = (List.range n).map (fun k => ((a + k : Nat) : Int)) := by
  unfold intRange
  have h1 : (((a + n : Nat) : Int) - (a : Int)).toNat = n := by push_cast; omega
  rw [h1]
  apply List.map_congr_left
  intro k _
  push_cast
  ring

theorem rangeMap_sorted (a n : Nat) :
    List.Sorted (fun x y => x ≤ y) ((List.range n).map (fun k => ((a + k : Nat) : Int))) :=
  List.pairwise_map.mpr ((List.pairwise_lt_range n).imp (by intro i j hij; push_cast; omega))

theorem rangeMap_nodup (a n : Nat) :
    ((List.range n).map (fun k => ((a + k : Nat) : Int))).Nodup := by
  refine (List.nodup_range n).map_on ?_
  intro x _ y _ hxy
  have hn : a + x = a + y := by exact_mod_cast hxy
  omega

theorem rangeMap_mem (a n : Nat) (x : Int) :
    x ∈ (List.range n).map (fun k => ((a + k : Nat) : Int))
      ↔ ∃ k, k < n ∧ x = ((a + k : Nat) : Int) := by
  rw [List.mem_map]
  constructor
  · rintro ⟨k, hk, rfl⟩
    exact ⟨k, List.mem_range.mp hk, rfl⟩
  · rintro ⟨k, hk, rfl⟩
    exact ⟨k, List.mem_range.mpr hk, rfl⟩

theorem rangeMap_cons (a m : Nat) :
    (List.range (m + 1)).map (fun k => ((a + k : Nat) : Int))
      = ((a : Nat) : Int) :: (List.range m).map (fun k => ((a + (k + 1) : Nat) : Int)) := by
  rw [List.range_succ_eq_map, List.map_cons, List.map_map]
  rfl

theorem rangeMap_getLastD (a m : Nat) :
    ((List.range (m + 1)).map (fun k => ((a + k : Nat) : Int))).getLastD 0
      = ((a + m : Nat) : Int) := by
  rw [List.range_succ, List.map_append]
  exact getLastD_append_single _ _ _

/-- Sorting any duplicate-free enumeration of `{a, .., a+n-1}` yields the
ascending range. -/
theorem insertionSort_rangeMap (a n : Nat) (l : List Int) (hnd : l.Nodup)
    (hmem : ∀ x, x ∈ l ↔ ∃ k, k < n ∧ x = ((a + k : Nat) : Int)) :
    List.insertionSort (fun x y => x ≤ y) l
      = (List.range n).map (fun k => ((a + k : Nat) : Int)) := by
  apply List.eq_of_perm_of_sorted ?_ (List.sorted_insertionSort _ l) (rangeMap_sorted a n)
  refine (List.perm_insertionSort _ l).trans ?_
  apply List.perm_of_nodup_nodup_toFinset_eq hnd (rangeMap_nodup a n)
  apply Finset.ext
  intro x
  rw [List.mem_toFinset, List.mem_toFinset, hmem, rangeMap_mem]

theorem sortedStrs_nodup (l : List String) (h : SortedStrs l) : l.Nodup :=
  h.imp (fun {x y} hxy => by
    intro heq
    rw [heq, strLtB_irrefl] at hxy
    cases hxy)

theorem if_contains_false (s X : String) (h : s.toList.contains ',' = false) :
    (if s.toList.contains ',' = true then X else s) = s := by
  rw [h]
  simp

theorem range_str_chars (a b : Nat) :
    ∀ c ∈ (pyStrNat a ++ ":" ++ pyStrNat b).toList, c ≠ ',' := by
  intro c hc
  rw [toList_append, toList_append] at hc
  rcases List.mem_append.mp hc with h1 | h2
  · rcases List.mem_append.mp h1 with ha | hcolon
    · exact (digit_char_ne c (pyStrNat_all_digit a c ha)).2.1
    · have hcv : c = ':' := List.mem_singleton.mp hcolon
      rw [hcv]
      decide
  · exact (digit_char_ne c (pyStrNat_all_digit b c h2)).2.1

theorem getLastD_range_succ_map (g : Nat → Int) (m : Nat) (d : Int) :
    ((List.range (m + 1)).map g).getLastD d = g m := by
  rw [List.range_succ, List.map_append]
  exact getLastD_append_single _ _ _

/-- Innermost recursion level: a set of pure decimal tokens enumerating
`a .. a+n-1` (n ≥ 2) compresses to `str(a) ++ ":" ++ str(a+n-1)`. -/
theorem mp_level3 (fuel : Nat) (V : List String) (a n : Nat) (h2 : 2 ≤ n)
    (hmem : ∀ x, x ∈ V ↔ ∃ k, k < n ∧ x = pyStrNat (a + k)) :
    mpF (fuel + 1) V false = .ok (some (pyStrNat a ++ ":" ++ pyStrNat (a + (n - 1)))) := by
  obtain ⟨m, rfl⟩ : ∃ m, n = m + 2 := ⟨n - 2, by omega⟩
  cases V with
  | nil =>
    have h0 : pyStrNat (a + 0) ∈ ([] : List String) := (hmem _).mpr ⟨0, by omega, rfl⟩
    exact absurd h0 (List.not_mem_nil _)
  | cons x0 V1 =>
    have hbare : ∀ x ∈ x0 :: V1, stripSlash x = x ∧ splitSlashOnce x = none ∧
        isBareTok x = true ∧ splitKey x = "" ∧ splitRem x = x := by
      intro x hx
      obtain ⟨k, hk, rfl⟩ := (hmem x).mp hx
      obtain ⟨c, cs, hl, hc⟩ := pyStrNat_head_digit (a + k)
      have hds : digitSplit (pyStrNat (a + k)) = ("", pyStrNat (a + k)) :=
        digitSplit_head_digit _ c cs hl hc
      have hslash : ∀ ch ∈ (pyStrNat (a + k)).toList, ch ≠ '/' :=
        fun ch hch => (digit_char_ne ch (pyStrNat_all_digit _ ch hch)).1
      obtain ⟨hss, hnone, hbt, hkey, hrem⟩ := bare_parts _ hslash (pyStrNat_ne_empty _)
      exact ⟨hss, hnone, hbt, by rw [hkey, hds], by rw [hrem, hds]⟩
    obtain ⟨st, hg, hfl⟩ := groupPaths_ok_first_bare x0 V1
      (hbare x0 (List.mem_cons_self _ _)).2.2.1
    obtain ⟨V₂, hpat, hsorted, hV₂⟩ := groupPaths_uniform (x0 :: V1) "" st x0
      (List.mem_cons_self _ _) (fun p hp => (hbare p hp).2.2.2.1) hg
    have hV₂mem : ∀ v, v ∈ V₂ ↔ ∃ k, k < m + 2 ∧ v = pyStrNat (a + k) := by
      intro v
      rw [hV₂ v]
      constructor
      · rintro ⟨p, hp, hrem⟩
        obtain ⟨k, hk, rfl⟩ := (hmem p).mp hp
        rw [(hbare _ hp).2.2.2.2] at hrem
        exact ⟨k, hk, hrem.symm⟩
      · rintro ⟨k, hk, rfl⟩
        have hpV : pyStrNat (a + k) ∈ x0 :: V1 := (hmem _).mpr ⟨k, hk, rfl⟩
        exact ⟨pyStrNat (a + k), hpV, (hbare _ hpV).2.2.2.2⟩
    have hm0 : pyStrNat (a + 0) ∈ V₂ := (hV₂mem _).mpr ⟨0, by omega, rfl⟩
    have hm1 : pyStrNat (a + 1) ∈ V₂ := (hV₂mem _).mpr ⟨1, by omega, rfl⟩
    have hne01 : pyStrNat (a + 0) ≠ pyStrNat (a + 1) := by
      intro h
      have := pyStrNat_inj _ _ h
      omega
    obtain ⟨w1, w2, wt, hV₂sh⟩ := two_mem_shape V₂ _ _ hm0 hm1 hne01
    subst hV₂sh
    rw [mpF]
    simp only [hg]
    rw [hpat, hfl]
    simp only [goF]
    rw [if_neg (fun h => h rfl)]
    have hpy : ∀ s ∈ w1 :: w2 :: wt, pyInt s = some ((fun q => (pyInt q).getD 0) s) := by
      intro s hs
      obtain ⟨k, hk, rfl⟩ := (hV₂mem s).mp hs
      simp only [pyInt_pyStrNat, Option.getD_some]
    have hmap := mapPyInt_eq_map _ _ hpy
    simp only [hmap]
    have hintsnd : ((w1 :: w2 :: wt).map (fun q => (pyInt q).getD 0)).Nodup := by
      refine (sortedStrs_nodup _ hsorted).map_on ?_
      intro x hx y hy hxy
      obtain ⟨kx, hkx, rfl⟩ := (hV₂mem x).mp hx
      obtain ⟨ky, hky, rfl⟩ := (hV₂mem y).mp hy
      rw [pyInt_pyStrNat, pyInt_pyStrNat] at hxy
      simp only [Option.getD_some] at hxy
      have hnn : a + kx = a + ky := by exact_mod_cast hxy
      rw [show kx = ky from by omega]
    have hintsmem : ∀ x : Int, x ∈ (w1 :: w2 :: wt).map (fun q => (pyInt q).getD 0)
        ↔ ∃ k, k < m + 2 ∧ x = ((a + k : Nat) : Int) := by
      intro x
      rw [List.mem_map]
      constructor
      · rintro ⟨s, hs, rfl⟩
        obtain ⟨k, hk, rfl⟩ := (hV₂mem s).mp hs
        refine ⟨k, hk, ?_⟩
        rw [pyInt_pyStrNat]
        rfl
      · rintro ⟨k, hk, rfl⟩
        refine ⟨pyStrNat (a + k), (hV₂mem _).mpr ⟨k, hk, rfl⟩, ?_⟩
        rw [pyInt_pyStrNat]
        rfl
    have hsort := insertionSort_rangeMap a (m + 2) _ hintsnd hintsmem
    have hsort2 : List.insertionSort (fun x y => x ≤ y)
        ((w1 :: w2 :: wt).map (fun q => (pyInt q).getD 0))
        = ((a : Nat) : Int) :: (List.range (m + 1)).map (fun k => ((a + (k + 1) : Nat) : Int)) :=
      hsort.trans (rangeMap_cons a (m + 1))
    simp only [hsort2]
    rw [if_neg ?hlen]
    case hlen => simp
    rw [if_pos ?hguard]
    case hguard =>
      rw [List.getLastD_cons, getLastD_range_succ_map]
      have harg : ((a + (m + 1) : Nat) : Int) + 1 = ((a + (m + 2) : Nat) : Int) := by
        push_cast
        ring
      rw [harg, intRange_cast]
      exact (rangeMap_cons a (m + 1)).symm
    rw [List.getLastD_cons, getLastD_range_succ_map, pyStrInt_ofNat, pyStrInt_ofNat]
    rfl

/-- Middle recursion level: tokens `W ++ str(a+k)` with a digit-free stem
`W` group under `W` and compress to `W ++ str(a) ++ ":" ++ str(a+n-1)`. -/
theorem mp_level2 (fuel : Nat) (V : List String) (W : String) (a n : Nat) (h2 : 2 ≤ n)
    (hW : W ≠ "") (hWs : ∀ c ∈ W.toList, c ≠ '/') (hWd : ∀ c ∈ W.toList, c.isDigit = false)
    (hmem : ∀ x, x ∈ V ↔ ∃ k, k < n ∧ x = W ++ pyStrNat (a + k)) :
    mpF (fuel + 2) V false
      = .ok (some (W ++ (pyStrNat a ++ ":" ++ pyStrNat (a + (n - 1))))) := by
  cases V with
  | nil =>
    have h0 : W ++ pyStrNat (a + 0) ∈ ([] : List String) := (hmem _).mpr ⟨0, by omega, rfl⟩
    exact absurd h0 (List.not_mem_nil _)
  | cons x0 V1 =>
    have hbare : ∀ x ∈ x0 :: V1, isBareTok x = true ∧ splitKey x = W ∧
        ∃ k, k < n ∧ splitRem x = pyStrNat (a + k) ∧ x = W ++ pyStrNat (a + k) := by
      intro x hx
      obtain ⟨k, hk, rfl⟩ := (hmem x).mp hx
      have hslash : ∀ ch ∈ (W ++ pyStrNat (a + k)).toList, ch ≠ '/' := by
        intro ch hch
        rw [toList_append] at hch
        rcases List.mem_append.mp hch with h1 | hr
        · exact hWs ch h1
        · exact (digit_char_ne ch (pyStrNat_all_digit _ ch hr)).1
      have hne : W ++ pyStrNat (a + k) ≠ "" := by
        intro hh
        have hnil : (W ++ pyStrNat (a + k)).toList = [] := by rw [hh]; rfl
        rw [toList_append] at hnil
        exact toList_ne_nil_of_ne W hW (List.append_eq_nil.mp hnil).1
      obtain ⟨c, cs, hl, hc⟩ := pyStrNat_head_digit (a + k)
      have hds : digitSplit (W ++ pyStrNat (a + k)) = (W, pyStrNat (a + k)) :=
        digitSplit_concat W _ hWd c cs hl hc
      obtain ⟨hss, hnone, hbt, hkey, hrem⟩ := bare_parts _ hslash hne
      exact ⟨hbt, by rw [hkey, hds], k, hk, by rw [hrem, hds], rfl⟩
    obtain ⟨st, hg, hfl⟩ := groupPaths_ok_first_bare x0 V1
      (hbare x0 (List.mem_cons_self _ _)).1
    obtain ⟨V₂, hpat, hsorted, hV₂⟩ := groupPaths_uniform (x0 :: V1) W st x0
      (List.mem_cons_self _ _) (fun p hp => (hbare p hp).2.1) hg
    have hV₂mem : ∀ v, v ∈ V₂ ↔ ∃ k, k < n ∧ v = pyStrNat (a + k) := by
      intro v
      rw [hV₂ v]
      constructor
      · rintro ⟨p, hp, hrem⟩
        obtain ⟨_, _, k, hk, hrem2, _⟩ := hbare p hp
        exact ⟨k, hk, by rw [← hrem, hrem2]⟩
      · rintro ⟨k, hk, rfl⟩
        have hpV : W ++ pyStrNat (a + k) ∈ x0 :: V1 := (hmem _).mpr ⟨k, hk, rfl⟩
        obtain ⟨_, _, k2, hk2, hrem2, heq2⟩ := hbare _ hpV
        have hkk : pyStrNat (a + k) = pyStrNat (a + k2) := str_append_left_cancel W _ _ heq2
        exact ⟨W ++ pyStrNat (a + k), hpV, by rw [hrem2, ← hkk]⟩
    have hm0 : pyStrNat (a + 0) ∈ V₂ := (hV₂mem _).mpr ⟨0, by omega, rfl⟩
    have hm1 : pyStrNat (a + 1) ∈ V₂ := (hV₂mem _).mpr ⟨1, by omega, rfl⟩
    have hne01 : pyStrNat (a + 0) ≠ pyStrNat (a + 1) := by
      intro h
      have := pyStrNat_inj _ _ h
      omega
    obtain ⟨w1, w2, wt, hV₂sh⟩ := two_mem_shape V₂ _ _ hm0 hm1 hne01
    subst hV₂sh
    show mpF (fuel + 1 + 1) (x0 :: V1) false = _
    rw [mpF]
    simp only [hg]
    rw [hpat, hfl]
    simp only [goF]
    rw [if_pos hW]
    have hrec : mpF (fuel + 1) (w1 :: w2 :: wt) false
        = .ok (some (pyStrNat a ++ ":" ++ pyStrNat (a + (n - 1)))) :=
      mp_level3 fuel (w1 :: w2 :: wt) a n h2 hV₂mem
    simp only [hrec]
    have hnc : (pyStrNat a ++ ":" ++ pyStrNat (a + (n - 1))).toList.contains ',' = false :=
      contains_eq_false_of_all _ _ (range_str_chars a (a + (n - 1)))
    rw [if_contains_false _ _ hnc]
    rfl

/-- C2: for every family of paths `D/W<a+k>` (k < n, n ≥ 2) whose numeric
suffixes under the shared leading segments `D` and stem `W` form the
contiguous run `a .. a+n-1`, `make_pattern` emits the `start:end` range for
that stem: it returns `D/W<a>:<a+n-1>`.  Here `D` is non-empty and
slash-free and `W` is non-empty, slash-free, digit-free and comma-free.
In particular the seven paths `Dev1/ao1 .. Dev1/ao7` compress to
`Dev1/ao1:7`, the form the witness instantiates. -/
theorem claim_C2 (D W : String) (a n : Nat) (h2 : 2 ≤ n) (hD : D ≠ "")
    (hDs : ∀ c ∈ D.toList, c ≠ '/') (hW : W ≠ "")
    (hWs : ∀ c ∈ W.toList, c ≠ '/') (hWd : ∀ c ∈ W.toList, c.isDigit = false)
    (hWc : ∀ c ∈ W.toList, c ≠ ',') :
    make_pattern ((List.range n).map (fun k => D ++ "/" ++ (W ++ pyStrNat (a + k)))) true
      = .ok (some (D ++ "/" ++ (W ++ (pyStrNat a ++ ":" ++ pyStrNat (a + (n - 1)))))) := by
  have hpmem : ∀ x, x ∈ (List.range n).map (fun k => D ++ "/" ++ (W ++ pyStrNat (a + k)))
      ↔ ∃ k, k < n ∧ x = D ++ "/" ++ (W ++ pyStrNat (a + k)) := by
    intro x
    rw [List.mem_map]
    constructor
    · rintro ⟨k, hk, rfl⟩
      exact ⟨k, List.mem_range.mp hk, rfl⟩
    · rintro ⟨k, hk, rfl⟩
      exact ⟨k, List.mem_range.mpr hk, rfl⟩
  have hparts : ∀ p ∈ (List.range n).map (fun k => D ++ "/" ++ (W ++ pyStrNat (a + k))),
      isBareTok p = false ∧ splitKey p = D ∧
      ∃ k, k < n ∧ splitRem p = W ++ pyStrNat (a + k) := by
    intro p hp
    obtain ⟨k, hk, rfl⟩ := (hpmem p).mp hp
    obtain ⟨_, _, hbt, hkey, hrem⟩ := multi_parts D (W ++ pyStrNat (a + k)) hD hDs
    exact ⟨hbt, hkey, k, hk, hrem⟩
  have hp0 : D ++ "/" ++ (W ++ pyStrNat (a + 0))
      ∈ (List.range n).map (fun k => D ++ "/" ++ (W ++ pyStrNat (a + k))) :=
    (hpmem _).mpr ⟨0, by omega, rfl⟩
  obtain ⟨st, hst, hflag0⟩ := groupFold_ok_of_no_bare
    ((List.range n).map (fun k => D ++ "/" ++ (W ++ pyStrNat (a + k)))) ⟨[], false⟩
    (fun p hp => (hparts p hp).1)
  have hg : groupPaths ((List.range n).map (fun k => D ++ "/" ++ (W ++ pyStrNat (a + k))))
      = .ok st := hst
  have hfl : st.flag = false := hflag0
  obtain ⟨V, hpat, hsorted, hV⟩ := groupPaths_uniform _ D st _ hp0
    (fun p hp => (hparts p hp).2.1) hg
  have hVmem : ∀ v, v ∈ V ↔ ∃ k, k < n ∧ v = W ++ pyStrNat (a + k) := by
    intro v
    rw [hV v]
    constructor
    · rintro ⟨p, hp, hrem⟩
      obtain ⟨_, _, k, hk, hrem2⟩ := hparts p hp
      exact ⟨k, hk, by rw [← hrem, hrem2]⟩
    · rintro ⟨k, hk, rfl⟩
      refine ⟨D ++ "/" ++ (W ++ pyStrNat (a + k)), (hpmem _).mpr ⟨k, hk, rfl⟩, ?_⟩
      exact (multi_parts D (W ++ pyStrNat (a + k)) hD hDs).2.2.2.2
  have hm0 : W ++ pyStrNat (a + 0) ∈ V := (hVmem _).mpr ⟨0, by omega, rfl⟩
  have hm1 : W ++ pyStrNat (a + 1) ∈ V := (hVmem _).mpr ⟨1, by omega, rfl⟩
  have hne01 : W ++ pyStrNat (a + 0) ≠ W ++ pyStrNat (a + 1) := by
    intro h
    have h3 := pyStrNat_inj _ _ (str_append_left_cancel W _ _ h)
    omega
  obtain ⟨v1, v2, vt, hVsh⟩ := two_mem_shape V _ _ hm0 hm1 hne01
  subst hVsh
  have hml : 2 ≤ maxLenS ((List.range n).map (fun k => D ++ "/" ++ (W ++ pyStrNat (a + k)))) := by
    have hm := le_maxLenS_of_mem _ _ hp0
    rw [String.length_append, String.length_append, String.length_append] at hm
    have h1 : 1 ≤ D.length := length_pos_of_ne D hD
    have h4 : ("/" : String).length = 1 := rfl
    omega
  obtain ⟨fl, hfl3⟩ : ∃ fl,
      maxLenS ((List.range n).map (fun k => D ++ "/" ++ (W ++ pyStrNat (a + k)))) + 1
        = fl + 1 + 1 + 1 :=
    ⟨maxLenS ((List.range n).map (fun k => D ++ "/" ++ (W ++ pyStrNat (a + k)))) - 2, by omega⟩
  unfold make_pattern
  rw [hfl3, mpF]
  simp only [hg]
  rw [hpat, hfl]
  simp only [goF]
  rw [if_pos hD]
  have hrec : mpF (fl + 1 + 1) (v1 :: v2 :: vt) false
      = .ok (some (W ++ (pyStrNat a ++ ":" ++ pyStrNat (a + (n - 1))))) :=
    mp_level2 fl (v1 :: v2 :: vt) W a n h2 hW hWs hWd hVmem
  simp only [hrec]
  have hncW : (W ++ (pyStrNat a ++ ":" ++ pyStrNat (a + (n - 1)))).toList.contains ','
      = false := by
    apply contains_eq_false_of_all
    intro c hc
    rw [toList_append] at hc
    rcases List.mem_append.mp hc with h1 | hr
    · exact hWc c h1
    · exact range_str_chars a (a + (n - 1)) c hr
  rw [if_contains_false _ _ hncW,
    str_append_assoc D "/" (W ++ (pyStrNat a ++ ":" ++ pyStrNat (a + (n - 1))))]
  rfl

/-- Witness for C2: the seven contiguous paths `Dev1/ao1 .. Dev1/ao7` of
the specification compress to the string `Dev1/ao1:7`. -/
theorem claim_C2_witness :
    make_pattern ["Dev1/ao1", "Dev1/ao2", "Dev1/ao3", "Dev1/ao4", "Dev1/ao5",
      "Dev1/ao6", "Dev1/ao7"] true = .ok (some "Dev1/ao1:7") := by
  have h := claim_C2 "Dev1" "ao" 1 7 (by decide) (by decide) (by decide) (by decide)
    (by decide) (by decide) (by decide)
  have hl : (List.range 7).map (fun k => "Dev1" ++ "/" ++ ("ao" ++ pyStrNat (1 + k)))
      = ["Dev1/ao1", "Dev1/ao2", "Dev1/ao3", "Dev1/ao4", "Dev1/ao5",
         "Dev1/ao6", "Dev1/ao7"] := by decide
  have hs : "Dev1" ++ "/" ++ ("ao" ++ (pyStrNat 1 ++ ":" ++ pyStrNat (1 + (7 - 1))))
      = "Dev1/ao1:7" := by decide
  rw [hl, hs] at h
  exact h
